import Mathlib

/-!
Verification of the Legifrance ingestion pipeline and tree materializer.

This file embeds, in Lean, the core data model and operations of
`scripts/ingest_legifrance_pg.py` and `scripts/precalculate_all_trees.py`:
the `documents` table and its upsert (`_upsert_documents`), stable
document-id computation (`_doc_id`), suppression by tokens
(`_delete_by_tokens`), and the wave-based tree materializer
(`build_tree_optimized` / `build_node_from_memory`).  External library
calls (`hashlib.sha256`, `lxml.etree`) are abstracted as function
parameters; everything else is translated directly from the Python source.
-/

set_option maxRecDepth 8000

namespace Legifrance

/-! ## Documents table and `_upsert_documents`

A row of the `documents` table
(`(id, source, doctype, path, updated_at, sha256, meta, content_xml, content_text)`
as in `_upsert_documents`).  The `meta` JSON is kept serialized as a string
here; the fields relevant to identity and deletion are modelled separately
where needed. -/
structure DocRow where
  id : String
  source : String
  doctype : String
  path : String
  updated_at : String
  sha256 : String
  meta : String
  content_xml : String
  content_text : String
  deriving DecidableEq, Repr

/-- One `INSERT ... ON CONFLICT (id) DO UPDATE SET ...` for a single row:
if a row with the same primary key `id` exists it is overwritten field by
field (every mutable field is listed in the SQL `DO UPDATE SET`), otherwise
the row is inserted. -/
def upsertOne (table : List DocRow) (r : DocRow) : List DocRow :=
  if table.any (fun row => row.id == r.id) then
    table.map (fun row => if row.id == r.id then r else row)
  else
    table ++ [r]

/-- `_upsert_documents`: `cur.executemany(sql, rows)` runs the upsert
statement once per row, in delivery order. -/
def upsertDocuments (table : List DocRow) (rows : List DocRow) : List DocRow :=
  rows.foldl upsertOne table

/-- The `documents` table invariant: `id` is the primary key, so ids are
pairwise distinct. -/
def NodupIds (table : List DocRow) : Prop :=
  (table.map DocRow.id).Nodup

theorem filter_replace_eq_nil (as : List DocRow) (r : DocRow)
    (h : ∀ row ∈ as, (row.id == r.id) = false) :
    ((as.map (fun row => if row.id == r.id then r else row)).filter
      (fun row => row.id == r.id)) = [] := by
  induction as with
  | nil => rfl
  | cons a as ih =>
    have ha := h a (List.mem_cons_self a as)
    simp only [List.map_cons, List.filter_cons]
    rw [if_neg (by simp [ha])]
    exact ih (fun row hrow => h row (List.mem_cons_of_mem a hrow))

theorem upsertOne_filter (r : DocRow) :
    ∀ table, NodupIds table →
      (upsertOne table r).filter (fun row => row.id == r.id) = [r] := by
  intro table h
  unfold upsertOne
  by_cases hmem : table.any (fun row => row.id == r.id) = true
  · rw [if_pos hmem]
    induction table with
    | nil => simp at hmem
    | cons a as ih =>
      unfold NodupIds at h
      simp only [List.map_cons, List.nodup_cons] at h
      by_cases ha : (a.id == r.id) = true
      · simp only [List.map_cons, if_pos ha, List.filter_cons, beq_self_eq_true,
          if_true]

        have hnil : ∀ row ∈ as, (row.id == r.id) = false := by
          intro row hrow
          by_contra hc
          rw [Bool.not_eq_false] at hc
          exact h.1 (List.mem_map.mpr ⟨row, hrow,
            (eq_of_beq hc).trans (eq_of_beq ha).symm⟩)
        rw [filter_replace_eq_nil as r hnil]
      · have hcond : ¬((a.id == r.id) = true) := by simp [ha]
        rw [List.map_cons, if_neg hcond, List.filter_cons, if_neg hcond]
        have hmem' : as.any (fun row => row.id == r.id) = true := by
          simp only [List.any_cons] at hmem
          rcases Bool.or_eq_true _ _ |>.mp hmem with hl | hr
          · exact absurd hl hcond
          · exact hr
        exact ih (by unfold NodupIds; exact h.2) hmem'
  · rw [if_neg hmem, List.filter_append]
    have h1 : table.filter (fun row => row.id == r.id) = [] := by
      rw [List.filter_eq_nil_iff]
      intro row hrow
      rw [List.any_eq_true] at hmem
      push_neg at hmem
      simpa using hmem row hrow
    rw [h1]
    simp

theorem upsertOne_nodup (table : List DocRow) (r : DocRow)
    (h : NodupIds table) : NodupIds (upsertOne table r) := by
  unfold NodupIds upsertOne
  by_cases hmem : table.any (fun row => row.id == r.id) = true
  · rw [if_pos hmem]
    have : (table.map (fun row => if row.id == r.id then r else row)).map
        DocRow.id = table.map DocRow.id := by
      rw [List.map_map]
      apply List.map_congr_left
      intro row _
      simp only [Function.comp_apply]
      by_cases hr : (row.id == r.id) = true
      · rw [if_pos hr]
        exact (eq_of_beq hr).symm
      · rw [if_neg hr]
    rw [this]
    exact h
  · rw [if_neg hmem, List.map_append, List.map_singleton, List.nodup_append]
    refine ⟨h, List.nodup_singleton _, ?_⟩
    intro a ha
    simp only [List.mem_singleton]
    intro hb
    subst hb
    simp only [List.mem_map] at ha
    obtain ⟨row, hrow, hidep⟩ := ha
    rw [List.any_eq_true] at hmem
    push_neg at hmem
    exact absurd (beq_iff_eq.mpr hidep) (by simpa using hmem row hrow)

theorem upsertOne_length_of_mem (table : List DocRow) (r : DocRow)
    (hmem : table.any (fun row => row.id == r.id) = true) :
    (upsertOne table r).length = table.length := by
  unfold upsertOne
  rw [if_pos hmem, List.length_map]

theorem upsertOne_length_le (table : List DocRow) (r : DocRow) :
    (upsertOne table r).length ≤ table.length + 1 := by
  unfold upsertOne
  by_cases hmem : table.any (fun row => row.id == r.id) = true
  · rw [if_pos hmem, List.length_map]
    omega
  · rw [if_neg hmem, List.length_append, List.length_singleton]

theorem mem_upsertOne_self (table : List DocRow) (r : DocRow)
    (h : NodupIds table) : r ∈ upsertOne table r := by
  have hf := upsertOne_filter r table h
  have : r ∈ (upsertOne table r).filter (fun row => row.id == r.id) := by
    rw [hf]
    exact List.mem_singleton_self r
  exact (List.mem_filter.mp this).1

/-- C1 (idempotent upsert).  Starting from any table satisfying the
primary-key invariant, upserting two records `r1` then `r2` that resolve to
the one document id leaves exactly one row for that id, whose every mutable
field (`source`, `doctype`, `path`, `updated_at`, `sha256`, `meta`,
`content_xml`, `content_text`) equals the record upserted last (`r2`); at
most one row is added in total and the primary-key invariant is preserved,
so no duplicate row is ever created.  Instantiating `r1 := r2` gives the
"upserted twice" case, and swapping the two records gives the other order
(the last then being `r1`).  Within an ingestion run archives are processed
in chronological order and `updated_at` is the archive's date key, so the
record upserted last carries the later `updated_at`, which therefore
wins. -/
theorem C1_idempotent_upsert (table : List DocRow) (r1 r2 : DocRow)
    (hkey : NodupIds table) (hid : r1.id = r2.id) :
    (upsertDocuments table [r1, r2]).filter (fun row => row.id == r2.id) = [r2] ∧
    (upsertDocuments table [r1, r2]).length ≤ table.length + 1 ∧
    NodupIds (upsertDocuments table [r1, r2]) := by
  have hstep : upsertDocuments table [r1, r2] = upsertOne (upsertOne table r1) r2 := rfl
  have h1 : NodupIds (upsertOne table r1) := upsertOne_nodup table r1 hkey
  refine ⟨?_, ?_, ?_⟩
  · rw [hstep]
    exact upsertOne_filter r2 (upsertOne table r1) h1
  · rw [hstep]
    have hany : (upsertOne table r1).any (fun row => row.id == r2.id) = true := by
      rw [List.any_eq_true]
      exact ⟨r1, mem_upsertOne_self table r1 hkey, beq_iff_eq.mpr hid⟩
    rw [upsertOne_length_of_mem _ r2 hany]
    exact upsertOne_length_le table r1
  · rw [hstep]
    exact upsertOne_nodup _ r2 h1

/-- Demonstration rows for C1: the same logical entity
(`LEGIARTI000006797825`) arriving under two different archive
snapshot paths with two different `updated_at` stamps. -/
def c1RowEarly : DocRow :=
  { id := "LEGIARTI000006797825", source := "LEGI", doctype := "article",
    path := "20250101-010101/legi/article/LEGIARTI000006797825.xml",
    updated_at := "20250101-010101", sha256 := "aa", meta := "{}",
    content_xml := "<ARTICLE/>", content_text := "old" }

def c1RowLate : DocRow :=
  { id := "LEGIARTI000006797825", source := "LEGI", doctype := "article",
    path := "20260104-202823/legi/article/LEGIARTI000006797825.xml",
    updated_at := "20260104-202823", sha256 := "bb", meta := "{}",
    content_xml := "<ARTICLE/>", content_text := "new" }

def emptyDocs : List DocRow := []

/-- Witness for C1 at a concrete input: ingesting the same article twice,
under two snapshot paths, yields exactly the single later row. -/
theorem C1_idempotent_upsert_witness :
    (upsertDocuments emptyDocs [c1RowEarly, c1RowLate]).filter
        (fun row => row.id == c1RowLate.id) = [c1RowLate] ∧
    (upsertDocuments emptyDocs [c1RowEarly, c1RowLate]).length ≤ emptyDocs.length + 1 ∧
    NodupIds (upsertDocuments emptyDocs [c1RowEarly, c1RowLate]) :=
  C1_idempotent_upsert emptyDocs c1RowEarly c1RowLate (by simp [NodupIds, emptyDocs]) rfl

/-! ## Structural-id recognition and `_doc_id`

`_doc_id` recognizes structural ids with `re.search(r'(LEGI[A-Z]{3,4}\d{12})', path)`;
`_delete_by_tokens` uses the slightly wider `r'(LEGI[A-Z]{3,5}\d{12})'`.
Both are leftmost searches for the literal `LEGI`, then a greedy run of
capital letters (longest count first, backtracking down to 3), then exactly
12 digits.  We implement the scanner once, parameterized by the list of
letter counts tried, in backtracking order (`[4, 3]` resp. `[5, 4, 3]`). -/

def capLetter (c : Char) : Bool := decide ('A' ≤ c ∧ c ≤ 'Z')

def digitChar (c : Char) : Bool := decide ('0' ≤ c ∧ c ≤ '9')

/-- Take exactly `n` characters all satisfying `p`, returning them and the
remainder, or `none` if fewer than `n` match. -/
def takeExactly : Nat → (Char → Bool) → List Char → Option (List Char × List Char)
  | 0, _, cs => some ([], cs)
  | _ + 1, _, [] => none
  | n + 1, p, c :: cs =>
    if p c then (takeExactly n p cs).map (fun x => (c :: x.1, x.2)) else none

/-- Match `[A-Z]{k}\d{12}` at the head of `cs`, returning the matched
characters. -/
def legiTail (k : Nat) (cs : List Char) : Option (List Char) :=
  match takeExactly k capLetter cs with
  | none => none
  | some (ls, r1) =>
    match takeExactly 12 digitChar r1 with
    | none => none
    | some (ds, _) => some (ls ++ ds)

/-- Backtracking over the letter counts `ks` (tried in order). -/
def legiTailTry (cs : List Char) : List Nat → Option (List Char)
  | [] => none
  | k :: ks =>
    match legiTail k cs with
    | some found => some found
    | none => legiTailTry cs ks

/-- Match the whole pattern at the head of `cs`. -/
def legiHere (ks : List Nat) (cs : List Char) : Option (List Char) :=
  match cs with
  | 'L' :: 'E' :: 'G' :: 'I' :: r =>
    (legiTailTry r ks).map (fun found => 'L' :: 'E' :: 'G' :: 'I' :: found)
  | _ => none

/-- Leftmost search, one start position at a time. -/
def legiSearchAux (ks : List Nat) : List Char → Option (List Char)
  | [] => none
  | c :: rest =>
    match legiHere ks (c :: rest) with
    | some found => some found
    | none => legiSearchAux ks rest

/-- `re.search(r'(LEGI[A-Z]{m,n}\d{12})', s)` with letter counts `ks`
(given largest first, i.e. in greedy backtracking order). -/
def legiSearch (ks : List Nat) (s : String) : Option String :=
  (legiSearchAux ks s.toList).map fun found => String.mk found

/-- Does `ts` have the form `\d{8}-\d{6}` (8 digits, `-`, 6 digits)? -/
def tsShape (ts : String) : Bool :=
  match ts.toList with
  | [a1, a2, a3, a4, a5, a6, a7, a8, dash, b1, b2, b3, b4, b5, b6] =>
    digitChar a1 && digitChar a2 && digitChar a3 && digitChar a4 &&
    digitChar a5 && digitChar a6 && digitChar a7 && digitChar a8 &&
    (dash == '-') &&
    digitChar b1 && digitChar b2 && digitChar b3 && digitChar b4 &&
    digitChar b5 && digitChar b6
  | _ => false

/-- `re.sub(r'^\d{8}-\d{6}/', '', path_in_tar)`: strip a leading
`YYYYMMDD-HHMMSS/` snapshot-timestamp segment, if present.  The 16-char
anchored pattern is the `\d{8}-\d{6}` shape followed by `/`. -/
def stripTimestamp (s : String) : String :=
  if tsShape (String.mk (s.toList.take 15)) &&
      ((s.toList.drop 15).head? == some '/') then
    String.mk (s.toList.drop 16)
  else s

/-- `_doc_id`, priorities 2 and 3: the id pattern found in the path, else
the hash of `source:stable_path`.  `sha256hex` abstracts
`hashlib.sha256(...).hexdigest()` (an external library call). -/
def docIdFallback (sha256hex : String → String) (source path_in_tar : String) : String :=
  match legiSearch [4, 3] path_in_tar with
  | some found => found
  | none => sha256hex (source ++ ":" ++ stripTimestamp path_in_tar)

/-- `_doc_id(source, path_in_tar, meta=meta)`.  `metaId` is `meta.get('id')`
(`none` when the key is absent or `null`); Python truthiness also rejects
the empty string. -/
def docId (sha256hex : String → String) (source path_in_tar : String)
    (metaId : Option String) : String :=
  match metaId with
  | some found => if found = "" then docIdFallback sha256hex source path_in_tar else found
  | none => docIdFallback sha256hex source path_in_tar

theorem tsShape_length (ts : String) (h : tsShape ts = true) :
    ts.toList.length = 15 := by
  unfold tsShape at h
  split at h
  case _ heq => rw [heq]; rfl
  case _ => exact absurd h (by simp)

theorem mk_toList (s : String) : String.mk s.toList = s := by
  cases s
  rfl

theorem stripTimestamp_concat (ts rest : String) (h : tsShape ts = true) :
    stripTimestamp (ts ++ "/" ++ rest) = rest := by
  have hlen : ts.toList.length = 15 := tsShape_length ts h
  have hsplit : (ts ++ "/" ++ rest).toList = ts.toList ++ ('/' :: rest.toList) := by
    show ((ts ++ "/") ++ rest).data = ts.data ++ ('/' :: rest.data)
    rw [String.data_append, String.data_append, List.append_assoc]
    rfl
  have htake : (ts ++ "/" ++ rest).toList.take 15 = ts.toList := by
    rw [hsplit, ← hlen]
    exact List.take_left ts.toList _
  have hdrop : (ts ++ "/" ++ rest).toList.drop 15 = '/' :: rest.toList := by
    rw [hsplit, ← hlen]
    exact List.drop_left ts.toList _
  have hdrop16 : (ts ++ "/" ++ rest).toList.drop 16 = rest.toList := by
    have h16 : (16 : Nat) = 15 + 1 := rfl
    rw [h16, ← List.drop_drop, hdrop]
    rfl
  unfold stripTimestamp
  rw [htake, hdrop, hdrop16, mk_toList, if_pos (by simp [h])]
  exact mk_toList rest

/-- C2 (identity resolution priority).  For every source, archive path and
extracted metadata id, `_doc_id` resolves in priority order: (1) a truthy
structural id in the metadata wins; (2) otherwise the first
`LEGI[A-Z]{3,4}\d{12}` pattern found in the path; (3) otherwise the hash of
`source` + `:` + the path with its leading `\d{8}-\d{6}/` snapshot
timestamp stripped.  Consequently (4) the same entity under two different
snapshot-timestamp directories always maps to the same id. -/
theorem C2_identity_resolution (sha256hex : String → String)
    (source path : String) (metaId : Option String) :
    (∀ found, metaId = some found → found ≠ "" →
      docId sha256hex source path metaId = found) ∧
    ((metaId = none ∨ metaId = some "") →
      ∀ found, legiSearch [4, 3] path = some found →
        docId sha256hex source path metaId = found) ∧
    ((metaId = none ∨ metaId = some "") → legiSearch [4, 3] path = none →
      docId sha256hex source path metaId =
        sha256hex (source ++ ":" ++ stripTimestamp path)) ∧
    (∀ ts1 ts2 rest, tsShape ts1 = true → tsShape ts2 = true →
      legiSearch [4, 3] (ts1 ++ "/" ++ rest) = none →
      legiSearch [4, 3] (ts2 ++ "/" ++ rest) = none →
      docId sha256hex source (ts1 ++ "/" ++ rest) none =
        docId sha256hex source (ts2 ++ "/" ++ rest) none) := by
  refine ⟨?_, ?_, ?_, ?_⟩
  · intro found hmeta hne
    rw [hmeta]
    simp [docId, hne]
  · intro hmeta found hsearch
    rcases hmeta with hnone | hempty
    · rw [hnone]
      simp [docId, docIdFallback, hsearch]
    · rw [hempty]
      simp [docId, docIdFallback, hsearch]
  · intro hmeta hsearch
    rcases hmeta with hnone | hempty
    · rw [hnone]
      simp [docId, docIdFallback, hsearch]
    · rw [hempty]
      simp [docId, docIdFallback, hsearch]
  · intro ts1 ts2 rest h1 h2 hs1 hs2
    simp only [docId, docIdFallback, hs1, hs2,
      stripTimestamp_concat ts1 rest h1, stripTimestamp_concat ts2 rest h2]

/-- A tagging stand-in for `hashlib.sha256(...).hexdigest()` in witnesses:
any concrete function will do, since the theorems hold for every hash. -/
def hashTag (s : String) : String := "sha256:" ++ s

/-- Witness for C2: the metadata id wins when present; with no metadata id
and no id pattern in the path, the id is the hash of the
timestamp-stripped path — so two snapshot folders give one id. -/
theorem C2_identity_resolution_witness :
    docId hashTag "LEGI" "20260104-202823/legi/some/file.xml" (some "LEGITEXT000006070721")
      = "LEGITEXT000006070721" ∧
    docId hashTag "LEGI" "20260104-202823/legi/some/file.xml" none
      = hashTag ("LEGI" ++ ":" ++ stripTimestamp "20260104-202823/legi/some/file.xml") ∧
    docId hashTag "LEGI" "20250101-010101/legi/some/file.xml" none
      = docId hashTag "LEGI" "20260104-202823/legi/some/file.xml" none := by
  refine ⟨?_, ?_, ?_⟩
  · exact (C2_identity_resolution hashTag "LEGI" "20260104-202823/legi/some/file.xml"
      (some "LEGITEXT000006070721")).1 "LEGITEXT000006070721" rfl (by decide)
  · exact (C2_identity_resolution hashTag "LEGI" "20260104-202823/legi/some/file.xml"
      none).2.2.1 (Or.inl rfl) (by decide)
  · exact (C2_identity_resolution hashTag "LEGI" "x" none).2.2.2
      "20250101-010101" "20260104-202823" "legi/some/file.xml"
      (by decide) (by decide) (by decide) (by decide)

/-! ## `_delete_by_tokens`

For deletion only four aspects of a stored document matter: its `source`
column, its `path`, the indexed `meta->>'id'` sub-field, and the serialized
metadata `meta::text`. -/
structure DelDoc where
  source : String
  path : String
  metaId : Option String
  metaText : String
  deriving DecidableEq, Repr

/-- ASCII lowercasing, as applied by `ILIKE` on both sides. -/
def lowerChar (c : Char) : Char :=
  if 'A' ≤ c ∧ c ≤ 'Z' then Char.ofNat (c.toNat + 32) else c

def startsWithSeq : List Char → List Char → Bool
  | [], _ => true
  | _ :: _, [] => false
  | n :: ns, h :: hs => n == h && startsWithSeq ns hs

def hasSub (need : List Char) : List Char → Bool
  | [] => need.isEmpty
  | c :: t => startsWithSeq need (c :: t) || hasSub need t

/-- `column ILIKE '%token%'`: case-insensitive substring match. -/
def ilikeContains (hay token : String) : Bool :=
  hasSub (token.toList.map lowerChar) (hay.toList.map lowerChar)

/-- The fast-path `DELETE` predicate:
`source = %s AND meta->>'id' = ANY(batch)`. -/
def fastMatch (source : String) (ids : List String) (d : DelDoc) : Bool :=
  d.source == source && d.metaId.any (fun i => ids.contains i)

/-- The slow-path `DELETE` predicate:
`source = %s AND (path ILIKE ANY(patterns) OR meta::text ILIKE ANY(patterns))`
where each pattern is `%token%`. -/
def slowMatch (source : String) (pats : List String) (d : DelDoc) : Bool :=
  d.source == source &&
    (pats.any (fun t => ilikeContains d.path t) ||
     pats.any (fun t => ilikeContains d.metaText t))

/-- `range(0, len(ids_to_delete), batch_size)` slicing with
`batch_size = 1000`. -/
def chunked1000 (l : List String) : List (List String) :=
  if l = [] then [] else l.take 1000 :: chunked1000 (l.drop 1000)
termination_by l.length
decreasing_by
  rename_i h
  have : 0 < l.length := List.length_pos.mpr h
  simp only [List.length_drop]
  omega

/-- `_delete_by_tokens(conn, tokens, source)`: cap at 5000 tokens, split by
whether `re.search(r'(LEGI[A-Z]{3,5}\d{12})', token)` finds a structural
id, delete the id-bearing group by exact indexed id match in batches of
1000, then the rest by `ILIKE` substring match.  Returns the surviving
store and the deleted count. -/
def deleteByTokens (store : List DelDoc) (tokens : List String)
    (source : String) : List DelDoc × Nat :=
  let capped := tokens.take 5000
  let idsToDelete := capped.filterMap (fun t => legiSearch [5, 4, 3] t)
  let tokensWithoutId := capped.filter (fun t => (legiSearch [5, 4, 3] t).isNone)
  let afterFast := (chunked1000 idsToDelete).foldl
    (fun s batch => s.filter (fun d => !(fastMatch source batch d))) store
  let afterSlow := if tokensWithoutId.isEmpty then afterFast
    else afterFast.filter (fun d => !(slowMatch source tokensWithoutId d))
  (afterSlow, store.length - afterSlow.length)

theorem chunked1000_flatten_aux :
    ∀ n, ∀ l : List String, l.length ≤ n → (chunked1000 l).flatten = l := by
  intro n
  induction n with
  | zero =>
    intro l hl
    have h0 : l = [] := List.length_eq_zero.mp (Nat.le_zero.mp hl)
    rw [h0]
    unfold chunked1000
    simp
  | succ n ih =>
    intro l hl
    unfold chunked1000
    by_cases hl0 : l = []
    · rw [if_pos hl0, hl0]
      rfl
    · rw [if_neg hl0, List.flatten_cons]
      have hpos : 0 < l.length := List.length_pos.mpr hl0
      rw [ih (l.drop 1000) (by simp only [List.length_drop]; omega)]
      exact List.take_append_drop 1000 l

theorem chunked1000_flatten (l : List String) : (chunked1000 l).flatten = l :=
  chunked1000_flatten_aux l.length l le_rfl

theorem chunked1000_small_aux :
    ∀ n, ∀ l : List String, l.length ≤ n → ∀ b ∈ chunked1000 l, b.length ≤ 1000 := by
  intro n
  induction n with
  | zero =>
    intro l hl b hb
    have h0 : l = [] := List.length_eq_zero.mp (Nat.le_zero.mp hl)
    rw [h0] at hb
    unfold chunked1000 at hb
    simp at hb
  | succ n ih =>
    intro l hl b hb
    unfold chunked1000 at hb
    by_cases hl0 : l = []
    · rw [if_pos hl0] at hb
      cases hb
    · rw [if_neg hl0] at hb
      rcases List.mem_cons.mp hb with hhead | htail
      · rw [hhead]
        exact List.length_take_le 1000 l
      · have hpos : 0 < l.length := List.length_pos.mpr hl0
        exact ih (l.drop 1000) (by simp only [List.length_drop]; omega) b htail

theorem chunked1000_small (l : List String) : ∀ b ∈ chunked1000 l, b.length ≤ 1000 :=
  chunked1000_small_aux l.length l le_rfl

theorem foldl_filter_fast_mem (source : String) (d : DelDoc) :
    ∀ (bs : List (List String)) (store : List DelDoc),
      (d ∈ bs.foldl (fun s batch => s.filter (fun x => !(fastMatch source batch x))) store ↔
        d ∈ store ∧ ∀ b ∈ bs, fastMatch source b d = false) := by
  intro bs
  induction bs with
  | nil => intro store; simp
  | cons b bs ih =>
    intro store
    rw [List.foldl_cons, ih]
    simp only [List.mem_filter, Bool.not_eq_true']
    constructor
    · rintro ⟨⟨hmem, hb⟩, hall⟩
      refine ⟨hmem, ?_⟩
      intro b2 hb2
      rcases List.mem_cons.mp hb2 with h1 | h2
      · rw [h1]; exact hb
      · exact hall b2 h2
    · rintro ⟨hmem, hall⟩
      exact ⟨⟨hmem, hall b (List.mem_cons_self b bs)⟩,
        fun b2 hb2 => hall b2 (List.mem_cons_of_mem b hb2)⟩

theorem fastMatch_true_iff (source : String) (ids : List String) (d : DelDoc) :
    fastMatch source ids d = true ↔
      (d.source = source ∧ ∃ i, d.metaId = some i ∧ i ∈ ids) := by
  unfold fastMatch
  cases hmi : d.metaId with
  | none => simp
  | some i => simp [List.contains, List.elem_iff]

theorem fastMatch_false_iff (source : String) (ids : List String) (d : DelDoc) :
    fastMatch source ids d = false ↔
      ¬(d.source = source ∧ ∃ i, d.metaId = some i ∧ i ∈ ids) := by
  rw [← fastMatch_true_iff source ids d]
  exact ⟨fun h => by simp [h], fun h => by
    cases hb : fastMatch source ids d
    · rfl
    · exact absurd hb h⟩

theorem fastMatch_chunks_iff (source : String) (ids : List String) (d : DelDoc) :
    (∀ b ∈ chunked1000 ids, fastMatch source b d = false) ↔
      fastMatch source ids d = false := by
  constructor
  · intro hall
    rw [fastMatch_false_iff]
    rintro ⟨h1, i, h2, h3⟩
    rw [← chunked1000_flatten ids, List.mem_flatten] at h3
    obtain ⟨b, hb, hib⟩ := h3
    exact absurd ⟨h1, i, h2, hib⟩ ((fastMatch_false_iff source b d).mp (hall b hb))
  · intro hfalse b hb
    rw [fastMatch_false_iff] at hfalse ⊢
    rintro ⟨h1, i, h2, h3⟩
    refine hfalse ⟨h1, i, h2, ?_⟩
    rw [← chunked1000_flatten ids, List.mem_flatten]
    exact ⟨b, hb, h3⟩

/-- C3, amended (suppression exactness under the safety cap).  For a
deletion manifest of at most 5000 tokens, each carrying a recognizable
structural id: no token is routed to the slow substring path, every fast
batch has at most 1000 ids, and `_delete_by_tokens` removes exactly the
documents of the given source whose indexed metadata id equals the id
extracted from some token — and no others. -/
theorem C3_suppression_exactness (store : List DelDoc) (tokens : List String)
    (source : String) (hcap : tokens.length ≤ 5000)
    (hids : ∀ t ∈ tokens, (legiSearch [5, 4, 3] t).isSome = true) :
    tokens.filter (fun t => (legiSearch [5, 4, 3] t).isNone) = [] ∧
    (∀ b ∈ chunked1000 (tokens.filterMap (fun t => legiSearch [5, 4, 3] t)),
      b.length ≤ 1000) ∧
    (∀ d, d ∈ (deleteByTokens store tokens source).1 ↔
      d ∈ store ∧ ¬(d.source = source ∧
        ∃ t ∈ tokens, ∃ i, legiSearch [5, 4, 3] t = some i ∧ d.metaId = some i)) := by
  have htake : tokens.take 5000 = tokens := List.take_of_length_le hcap
  have hslow : tokens.filter (fun t => (legiSearch [5, 4, 3] t).isNone) = [] := by
    rw [List.filter_eq_nil_iff]
    intro t ht
    have hsome := hids t ht
    cases h : legiSearch [5, 4, 3] t with
    | none => rw [h] at hsome; simp at hsome
    | some i => simp [h]
  refine ⟨hslow, chunked1000_small _, ?_⟩
  intro d
  have key : (deleteByTokens store tokens source).1 =
      (chunked1000 (tokens.filterMap (fun t => legiSearch [5, 4, 3] t))).foldl
        (fun s batch => s.filter (fun x => !(fastMatch source batch x))) store := by
    unfold deleteByTokens
    simp only [htake, hslow, List.isEmpty_nil, if_true]
  rw [key, foldl_filter_fast_mem source d (chunked1000 _) store]
  apply and_congr_right
  intro _
  rw [show (∀ b ∈ chunked1000 (tokens.filterMap (fun t => legiSearch [5, 4, 3] t)),
      fastMatch source b d = false) ↔
      fastMatch source (tokens.filterMap (fun t => legiSearch [5, 4, 3] t)) d = false
    from fastMatch_chunks_iff source _ d]
  rw [fastMatch_false_iff]
  apply not_congr
  apply and_congr_right
  intro _
  constructor
  · rintro ⟨i, hmi, hin⟩
    rw [List.mem_filterMap] at hin
    obtain ⟨t, ht, hf⟩ := hin
    exact ⟨t, ht, i, hf, hmi⟩
  · rintro ⟨t, ht, i, hf, hmi⟩
    exact ⟨i, hmi, List.mem_filterMap.mpr ⟨t, ht, hf⟩⟩

theorem filterMap_replicate_some {α β : Type} (n : Nat) (f : α → Option β)
    (a : α) (b : β) (h : f a = some b) :
    List.filterMap f (List.replicate n a) = List.replicate n b := by
  induction n with
  | zero => rfl
  | succ n ih =>
    rw [List.replicate_succ, List.filterMap_cons, h, ih, List.replicate_succ]

theorem filter_replicate_false {α : Type} (n : Nat) (p : α → Bool)
    (a : α) (h : p a = false) :
    List.filter p (List.replicate n a) = [] := by
  induction n with
  | zero => rfl
  | succ n ih =>
    rw [List.replicate_succ, List.filter_cons, h]
    simpa using ih

theorem filter_replicate_true {α : Type} (n : Nat) (p : α → Bool)
    (a : α) (h : p a = true) :
    List.filter p (List.replicate n a) = List.replicate n a := by
  induction n with
  | zero => rfl
  | succ n ih =>
    rw [List.replicate_succ, List.filter_cons, h]
    simp only [if_true]
    rw [ih]

/-- A stored document whose indexed metadata id is the structural id
carried by the 5001st token of `c3Tokens`. -/
def c3Doc : DelDoc :=
  { source := "LEGI", path := "legi/some/path.xml",
    metaId := some "LEGIARTI000000000002", metaText := "{}" }

def c3TokenOld : String := "LEGIARTI000000000001"

def c3TokenNew : String := "LEGIARTI000000000002"

/-- A 5001-token suppression manifest; the last token names `c3Doc`. -/
def c3Tokens : List String := List.replicate 5000 c3TokenOld ++ [c3TokenNew]

/-- Counterexample to C3 as stated: `c3TokenNew` is a manifest token with a
perfectly recognizable structural id, the store holds a document of the
right source whose metadata id matches it exactly — yet the document
survives `_delete_by_tokens`, because the token sits past the
`tokens[:5000]` safety cap and is silently dropped. -/
theorem C3_cap_counterexample :
    c3TokenNew ∈ c3Tokens ∧
    legiSearch [5, 4, 3] c3TokenNew = some "LEGIARTI000000000002" ∧
    c3Doc.source = "LEGI" ∧
    c3Doc.metaId = some "LEGIARTI000000000002" ∧
    c3Doc ∈ (deleteByTokens [c3Doc] c3Tokens "LEGI").1 := by
  have hsearchOld : legiSearch [5, 4, 3] c3TokenOld = some c3TokenOld := by decide
  have hlen : (List.replicate 5000 c3TokenOld).length = 5000 :=
    List.length_replicate 5000 c3TokenOld
  have htake : c3Tokens.take 5000 = List.replicate 5000 c3TokenOld := by
    unfold c3Tokens
    rw [List.take_append_of_le_length (by rw [hlen]), List.take_replicate]
    rw [Nat.min_self]
  have hfm : (List.replicate 5000 c3TokenOld).filterMap
      (fun t => legiSearch [5, 4, 3] t) = List.replicate 5000 c3TokenOld :=
    filterMap_replicate_some 5000 _ c3TokenOld c3TokenOld hsearchOld
  have hfl : (List.replicate 5000 c3TokenOld).filter
      (fun t => (legiSearch [5, 4, 3] t).isNone) = [] :=
    filter_replicate_false 5000 _ c3TokenOld (by rw [hsearchOld]; rfl)
  have hkey : (deleteByTokens [c3Doc] c3Tokens "LEGI").1 =
      (chunked1000 (List.replicate 5000 c3TokenOld)).foldl
        (fun s batch => s.filter (fun x => !(fastMatch "LEGI" batch x))) [c3Doc] := by
    unfold deleteByTokens
    simp only [htake, hfm, hfl, List.isEmpty_nil, if_true]
  refine ⟨List.mem_append_right _ (List.mem_singleton_self _), by decide, rfl, rfl, ?_⟩
  rw [hkey, foldl_filter_fast_mem "LEGI" c3Doc _ [c3Doc]]
  refine ⟨List.mem_singleton_self _, ?_⟩
  rw [fastMatch_chunks_iff, fastMatch_false_iff]
  rintro ⟨_, i, hi, hmem⟩
  rw [show c3Doc.metaId = some "LEGIARTI000000000002" from rfl] at hi
  injection hi with hi2
  have hOld : i = c3TokenOld := List.eq_of_mem_replicate hmem
  rw [← hi2] at hOld
  exact absurd hOld (by decide)

/-- Witness for the amended C3 at a concrete input: a one-token manifest
whose token embeds the structural id of the stored document does delete
that document. -/
theorem C3_suppression_exactness_witness :
    c3Doc ∉ (deleteByTokens [c3Doc] ["ab/LEGIARTI000000000002.xml"] "LEGI").1 := by
  have h := (C3_suppression_exactness [c3Doc] ["ab/LEGIARTI000000000002.xml"] "LEGI"
    (by decide) (by decide)).2.2 c3Doc
  intro hmem
  exact (h.mp hmem).2 ⟨rfl, "ab/LEGIARTI000000000002.xml", List.mem_singleton_self _,
    "LEGIARTI000000000002", by decide, rfl⟩

/-! ## Tree materializer data model (`precalculate_all_trees.py`)

`meta->'sous_sections'` entries (`{"id", "debut", "fin", "etat"}`) and
`meta->'articles'` entries (`{"id", "num", "debut", "fin", "etat",
"origine"}`) as written by the extractor: the keys are always present, the
values other than `id` may be `null`. -/
structure SRef where
  id : String
  debut : Option String
  fin : Option String
  etat : Option String
  deriving DecidableEq, Repr

structure ARef where
  id : String
  num : Option String
  debut : Option String
  fin : Option String
  etat : Option String
  origine : Option String
  deriving DecidableEq, Repr

/-- A `documents` row as seen by the tree queries: the `meta` sub-fields
they select (`id`, `titre`, `nature`, `parent`, `date_debut`,
`sous_sections`, `articles`, `nb_sections`, `nb_articles`) plus the
`source` and `doctype` columns they filter on.  A `null` / absent JSON
field is `none` (`sous`/`arts` empty when absent). -/
structure DRow where
  mid : String
  titre : Option String
  nature : Option String
  parent : Option String
  date_debut : Option String
  sous : List SRef
  arts : List ARef
  nbSections : Option Nat
  nbArticles : Option Nat
  source : String
  doctype : String
  deriving DecidableEq, Repr

/-- The per-section dict built from a fetched row in `build_tree_optimized`
(`{"id", "titre", "sous_sections", "articles", "nb_sections",
"nb_articles"}`, the `nb_*` through `COALESCE(..., '0')::int`). -/
structure WSec where
  id : String
  titre : Option String
  sous : List SRef
  arts : List ARef
  nb_sections : Nat
  nb_articles : Nat
  deriving DecidableEq, Repr

/-- `COALESCE(meta->>'date_debut', '1900-01-01')`, the `ORDER BY` key. -/
def dateKey (r : DRow) : String := r.date_debut.getD "1900-01-01"

/-- `DISTINCT ON (meta->>'id') ... ORDER BY meta->>'id',
COALESCE(meta->>'date_debut', '1900-01-01') DESC` restricted to one group:
keep the row with the greatest date key (the first such row on a tie). -/
def pickLatest (g : List DRow) : Option DRow :=
  match g with
  | [] => none
  | r :: rest =>
    some (rest.foldl (fun best x => if dateKey best < dateKey x then x else best) r)

/-- The full `SELECT DISTINCT ON` result: one row per distinct id, the
latest-dated row of its group.  (Postgres returns the groups ordered by
id; no property verified below depends on the output order, so we use
first-occurrence order of the deduplicated ids.) -/
def fetchDedupLatest (rows : List DRow) : List DRow :=
  ((rows.map DRow.mid).dedup).filterMap
    (fun i => pickLatest (rows.filter (fun r => r.mid == i)))

def toWSec (r : DRow) : WSec :=
  { id := r.mid, titre := r.titre, sous := r.sous, arts := r.arts,
    nb_sections := r.nbSections.getD 0, nb_articles := r.nbArticles.getD 0 }

/-- `WHERE source = 'LEGI' AND doctype = 'section'`. -/
def isSectionRow (r : DRow) : Bool :=
  r.source == "LEGI" && r.doctype == "section"

/-- The root-frontier query: sections whose `meta->>'parent'` is the code
id, deduplicated to the latest version per id. -/
def fetchByParent (store : List DRow) (codeId : String) : List WSec :=
  (fetchDedupLatest (store.filter
    (fun r => isSectionRow r && r.parent == some codeId))).map toWSec

/-- One wave query: sections whose `meta->>'id' = ANY(ids)`, deduplicated
to the latest version per id. -/
def fetchByIds (store : List DRow) (ids : List String) : List WSec :=
  (fetchDedupLatest (store.filter
    (fun r => isSectionRow r && ids.contains r.mid))).map toWSec

theorem foldl_pick_mem :
    ∀ (rest : List DRow) (b : DRow),
      rest.foldl (fun best x => if dateKey best < dateKey x then x else best) b ∈
        b :: rest := by
  intro rest
  induction rest with
  | nil => intro b; exact List.mem_singleton_self b
  | cons y rest ih =>
    intro b
    rw [List.foldl_cons]
    have h := ih (if dateKey b < dateKey y then y else b)
    rcases List.mem_cons.mp h with hhead | htail
    · rw [hhead]
      by_cases hlt : dateKey b < dateKey y
      · rw [if_pos hlt]
        exact List.mem_cons_of_mem b (List.mem_cons_self y rest)
      · rw [if_neg hlt]
        exact List.mem_cons_self b _
    · exact List.mem_cons_of_mem b (List.mem_cons_of_mem y htail)

theorem foldl_pick_max :
    ∀ (rest : List DRow) (b : DRow), ∀ x ∈ b :: rest,
      dateKey x ≤ dateKey
        (rest.foldl (fun best u => if dateKey best < dateKey u then u else best) b) := by
  intro rest
  induction rest with
  | nil =>
    intro b x hx
    rw [List.mem_singleton.mp hx]
    exact le_rfl
  | cons y rest ih =>
    intro b x hx
    rw [List.foldl_cons]
    have hble : dateKey b ≤ dateKey (if dateKey b < dateKey y then y else b) := by
      by_cases hlt : dateKey b < dateKey y
      · rw [if_pos hlt]
        exact le_of_lt hlt
      · rw [if_neg hlt]
    have hyle : dateKey y ≤ dateKey (if dateKey b < dateKey y then y else b) := by
      by_cases hlt : dateKey b < dateKey y
      · rw [if_pos hlt]
      · rw [if_neg hlt]
        exact le_of_not_lt hlt
    have hhead := ih (if dateKey b < dateKey y then y else b)
      (if dateKey b < dateKey y then y else b)
      (List.mem_cons_self _ _)
    rcases List.mem_cons.mp hx with hb | hyr
    · rw [hb]
      exact le_trans hble hhead
    · rcases List.mem_cons.mp hyr with hy | hr
      · rw [hy]
        exact le_trans hyle hhead
      · exact ih _ x (List.mem_cons_of_mem _ hr)

theorem pickLatest_mem (g : List DRow) (r : DRow) (h : pickLatest g = some r) :
    r ∈ g := by
  cases g with
  | nil => cases h
  | cons b rest =>
    unfold pickLatest at h
    injection h with h2
    rw [← h2]
    exact foldl_pick_mem rest b

theorem pickLatest_max (g : List DRow) (r : DRow) (h : pickLatest g = some r) :
    ∀ x ∈ g, dateKey x ≤ dateKey r := by
  cases g with
  | nil => cases h
  | cons b rest =>
    unfold pickLatest at h
    injection h with h2
    rw [← h2]
    exact foldl_pick_max rest b

theorem pickLatest_isSome (g : List DRow) (hne : g ≠ []) :
    ∃ r, pickLatest g = some r := by
  cases g with
  | nil => exact absurd rfl hne
  | cons b rest => exact ⟨_, rfl⟩

theorem pickLatest_filter_mid (rows : List DRow) (i : String) (r : DRow)
    (h : pickLatest (rows.filter (fun x => x.mid == i)) = some r) :
    r.mid = i := by
  have hmem := pickLatest_mem _ r h
  exact eq_of_beq (List.mem_filter.mp hmem).2

theorem fetchDedup_nodup (rows : List DRow) :
    ((fetchDedupLatest rows).map DRow.mid).Nodup := by
  unfold fetchDedupLatest
  have hd : ((rows.map DRow.mid).dedup).Nodup := List.nodup_dedup _
  revert hd
  generalize (rows.map DRow.mid).dedup = l
  intro hd
  induction l with
  | nil => simp
  | cons a l ih =>
    rw [List.filterMap_cons]
    rcases List.nodup_cons.mp hd with ⟨hna, hl⟩
    cases hfa : pickLatest (rows.filter (fun x => x.mid == a)) with
    | none => exact ih hl
    | some r =>
      rw [List.map_cons, List.nodup_cons]
      refine ⟨?_, ih hl⟩
      intro hmem
      rw [List.mem_map] at hmem
      obtain ⟨r2, hr2, hmid⟩ := hmem
      rw [List.mem_filterMap] at hr2
      obtain ⟨i, hi, hpick⟩ := hr2
      have h1 : r2.mid = i := pickLatest_filter_mid rows i r2 hpick
      have h2 : r.mid = a := pickLatest_filter_mid rows a r hfa
      rw [h1, h2] at hmid
      rw [hmid] at hi
      exact hna hi

theorem fetchDedup_sound (rows : List DRow) :
    ∀ r ∈ fetchDedupLatest rows,
      r ∈ rows ∧ ∀ x ∈ rows, x.mid = r.mid → dateKey x ≤ dateKey r := by
  intro r hr
  unfold fetchDedupLatest at hr
  rw [List.mem_filterMap] at hr
  obtain ⟨i, _, hpick⟩ := hr
  have hmem := pickLatest_mem _ r hpick
  have hmid : r.mid = i := pickLatest_filter_mid rows i r hpick
  refine ⟨(List.mem_filter.mp hmem).1, ?_⟩
  intro x hx hxe
  refine pickLatest_max _ r hpick x (List.mem_filter.mpr ⟨hx, ?_⟩)
  rw [hxe, hmid]
  exact beq_self_eq_true i

theorem fetchDedup_complete (rows : List DRow) :
    ∀ x ∈ rows, ∃ r ∈ fetchDedupLatest rows, r.mid = x.mid := by
  intro x hx
  have hne : rows.filter (fun r => r.mid == x.mid) ≠ [] := by
    intro hnil
    have : x ∈ rows.filter (fun r => r.mid == x.mid) :=
      List.mem_filter.mpr ⟨hx, beq_self_eq_true _⟩
    rw [hnil] at this
    cases this
  obtain ⟨r, hr⟩ := pickLatest_isSome _ hne
  refine ⟨r, ?_, pickLatest_filter_mid rows x.mid r hr⟩
  unfold fetchDedupLatest
  rw [List.mem_filterMap]
  exact ⟨x.mid, List.mem_dedup.mpr (List.mem_map_of_mem DRow.mid hx), hr⟩

theorem fetchMapped_spec (store : List DRow) (p : DRow → Bool) :
    (((fetchDedupLatest (store.filter p)).map toWSec).map WSec.id).Nodup ∧
    (∀ w ∈ (fetchDedupLatest (store.filter p)).map toWSec, ∃ r ∈ store,
      p r = true ∧ w = toWSec r ∧
      ∀ x ∈ store, p x = true → x.mid = r.mid → dateKey x ≤ dateKey r) ∧
    (∀ x ∈ store, p x = true →
      ∃ w ∈ (fetchDedupLatest (store.filter p)).map toWSec, w.id = x.mid) := by
  refine ⟨?_, ?_, ?_⟩
  · rw [List.map_map]
    exact fetchDedup_nodup (store.filter p)
  · intro w hw
    rw [List.mem_map] at hw
    obtain ⟨r, hr, hwr⟩ := hw
    obtain ⟨hrf, hmax⟩ := fetchDedup_sound (store.filter p) r hr
    rcases List.mem_filter.mp hrf with ⟨hrs, hrp⟩
    refine ⟨r, hrs, hrp, hwr.symm, ?_⟩
    intro x hx hpx hmid
    exact hmax x (List.mem_filter.mpr ⟨hx, hpx⟩) hmid
  · intro x hx hpx
    obtain ⟨r, hr, hmid⟩ := fetchDedup_complete (store.filter p) x
      (List.mem_filter.mpr ⟨hx, hpx⟩)
    exact ⟨toWSec r, List.mem_map_of_mem toWSec hr, hmid⟩

/-- C10 (latest-version deduplication).  Both the root-frontier query and
every wave query return at most one row per metadata id, each returned row
is a stored row passing the query filter whose
`COALESCE(date_debut, '1900-01-01')` key is maximal among the stored rows
of that id passing the same filter, and every stored row passing the filter
is represented by exactly one returned row of its id — so the loaded map is
built from a single, latest version of each section. -/
theorem C10_latest_version_dedup (store : List DRow) (codeId : String)
    (ids : List String) :
    (((fetchByParent store codeId).map WSec.id).Nodup ∧
     (∀ w ∈ fetchByParent store codeId, ∃ r ∈ store,
       isSectionRow r = true ∧ r.parent = some codeId ∧ w = toWSec r ∧
       ∀ x ∈ store, isSectionRow x = true → x.parent = some codeId →
         x.mid = r.mid → dateKey x ≤ dateKey r) ∧
     (∀ x ∈ store, isSectionRow x = true → x.parent = some codeId →
       ∃ w ∈ fetchByParent store codeId, w.id = x.mid)) ∧
    (((fetchByIds store ids).map WSec.id).Nodup ∧
     (∀ w ∈ fetchByIds store ids, ∃ r ∈ store,
       isSectionRow r = true ∧ r.mid ∈ ids ∧ w = toWSec r ∧
       ∀ x ∈ store, isSectionRow x = true → x.mid ∈ ids →
         x.mid = r.mid → dateKey x ≤ dateKey r) ∧
     (∀ x ∈ store, isSectionRow x = true → x.mid ∈ ids →
       ∃ w ∈ fetchByIds store ids, w.id = x.mid)) := by
  have hparent := fetchMapped_spec store
    (fun r => isSectionRow r && r.parent == some codeId)
  have hids := fetchMapped_spec store
    (fun r => isSectionRow r && ids.contains r.mid)
  have hconvP : ∀ r : DRow,
      ((fun r => isSectionRow r && r.parent == some codeId) r = true) ↔
        (isSectionRow r = true ∧ r.parent = some codeId) := by
    intro r
    simp [Bool.and_eq_true]
  have hconvI : ∀ r : DRow,
      ((fun r => isSectionRow r && ids.contains r.mid) r = true) ↔
        (isSectionRow r = true ∧ r.mid ∈ ids) := by
    intro r
    simp [Bool.and_eq_true, List.contains, List.elem_iff]
  constructor
  · refine ⟨hparent.1, ?_, ?_⟩
    · intro w hw
      obtain ⟨r, hrs, hrp, hwr, hmax⟩ := hparent.2.1 w hw
      rcases (hconvP r).mp hrp with ⟨h1, h2⟩
      refine ⟨r, hrs, h1, h2, hwr, ?_⟩
      intro x hx hx1 hx2 hmid
      exact hmax x hx ((hconvP x).mpr ⟨hx1, hx2⟩) hmid
    · intro x hx hx1 hx2
      exact hparent.2.2 x hx ((hconvP x).mpr ⟨hx1, hx2⟩)
  · refine ⟨hids.1, ?_, ?_⟩
    · intro w hw
      obtain ⟨r, hrs, hrp, hwr, hmax⟩ := hids.2.1 w hw
      rcases (hconvI r).mp hrp with ⟨h1, h2⟩
      refine ⟨r, hrs, h1, h2, hwr, ?_⟩
      intro x hx hx1 hx2 hmid
      exact hmax x hx ((hconvI x).mpr ⟨hx1, hx2⟩) hmid
    · intro x hx hx1 hx2
      exact hids.2.2 x hx ((hconvI x).mpr ⟨hx1, hx2⟩)

/-- Two versions of section `S1` under code `C`, one dated 2000, one 2020. -/
def c10RowOld : DRow :=
  { mid := "S1", titre := some "Old title", nature := none, parent := some "C",
    date_debut := some "2000-01-01", sous := [], arts := [],
    nbSections := some 0, nbArticles := some 0,
    source := "LEGI", doctype := "section" }

def c10RowNew : DRow :=
  { mid := "S1", titre := some "New title", nature := none, parent := some "C",
    date_debut := some "2020-01-01", sous := [], arts := [],
    nbSections := some 0, nbArticles := some 0,
    source := "LEGI", doctype := "section" }

/-- Witness for C10: with two stored versions of `S1`, the root query still
returns a single `S1` row. -/
theorem C10_latest_version_dedup_witness :
    ∃ w ∈ fetchByParent [c10RowOld, c10RowNew] "C", w.id = "S1" :=
  (C10_latest_version_dedup [c10RowOld, c10RowNew] "C" []).1.2.2 c10RowOld
    (List.mem_cons_self _ _) rfl rfl

/-! ## `build_node_from_memory` and the output tree -/

/-- An article entry of an output node:
`{"id": art.get("id"), "num": art.get("num"), "titre": art.get("titre", "")}`.
The stored article references carry no `titre` key, so the `""` default
always applies. -/
structure OutArt where
  id : String
  num : Option String
  titre : String
  deriving DecidableEq, Repr

/-- An output tree node: `{"id", "titre", "nb_sections", "nb_articles"}`
plus a `children` key (set only when nonempty; we represent absence as the
empty list) and an `articles` key (likewise). -/
inductive Node where
  | mk (id : String) (titre : Option String) (nb_sections nb_articles : Nat)
      (children : List Node) (articles : List OutArt)

def Node.id : Node → String
  | .mk i _ _ _ _ _ => i

def Node.titre : Node → Option String
  | .mk _ t _ _ _ _ => t

def Node.children : Node → List Node
  | .mk _ _ _ _ c _ => c

def Node.articles : Node → List OutArt
  | .mk _ _ _ _ _ a => a

/-- `ss.get('fin', '2999-01-01') == '2999-01-01' or ss.get('etat') == 'VIGUEUR'`.
The extractor always writes the `fin` key (possibly `null`), and
`dict.get` with a default returns the stored `None` for a `null` value, so
the comparison is against the stored value: the reference passes only when
its end marker is literally the open-ended sentinel or its state flag is
literally `VIGUEUR`. -/
def refValid (ss : SRef) : Bool :=
  ss.fin == some "2999-01-01" || ss.etat == some "VIGUEUR"

/-- Same filter applied to article references. -/
def artValid (a : ARef) : Bool :=
  a.fin == some "2999-01-01" || a.etat == some "VIGUEUR"

def mkOutArt (a : ARef) : OutArt :=
  { id := a.id, num := a.num, titre := "" }

/-- The article loop of `build_node_from_memory`: append each reference
passing the validity filter and `break` as soon as 500 are collected. -/
def articlesLoop : List ARef → List OutArt → List OutArt
  | [], acc => acc.reverse
  | a :: rest, acc =>
    if artValid a then
      if 500 ≤ (mkOutArt a :: acc).length then (mkOutArt a :: acc).reverse
      else articlesLoop rest (mkOutArt a :: acc)
    else articlesLoop rest acc

def articlesFiltered (arts : List ARef) : List OutArt :=
  articlesLoop arts []

/-- `section_id in all_sections` / `all_sections[section_id]`: the loaded
map, keyed by section id. -/
def lookupSec (allSecs : List WSec) (sid : String) : Option WSec :=
  allSecs.find? (fun w => w.id == sid)

/-- `build_node_from_memory(section_id, current_depth, max_depth)`, with
`max_depth + 1 - current_depth` as explicit fuel: fuel `0` is exactly the
`current_depth > max_depth` guard, and the recursive call at
`current_depth + 1` consumes one unit.  Children are recursed into only
when `current_depth < max_depth` and only for references passing the
validity filter; failed lookups and exhausted depth yield `none` and are
dropped by the caller. -/
def buildNodeFuel : Nat → List WSec → String → Nat → Nat → Option Node
  | 0, _, _, _, _ => none
  | fuel + 1, allSecs, sid, d, m =>
    match lookupSec allSecs sid with
    | none => none
    | some sec =>
      let children :=
        if d < m then
          (sec.sous.filter refValid).filterMap
            (fun ss => buildNodeFuel fuel allSecs ss.id (d + 1) m)
        else []
      some (Node.mk sec.id sec.titre sec.nb_sections sec.nb_articles children
        (articlesFiltered sec.arts))

def build_node (allSecs : List WSec) (sid : String)
    (current_depth max_depth : Nat) : Option Node :=
  buildNodeFuel (max_depth + 1 - current_depth) allSecs sid current_depth max_depth

/-- `depthLe b n`: every leaf of `n` lies within `b` levels (the node
itself counting as one level). -/
def depthLe : Nat → Node → Bool
  | 0, _ => false
  | b + 1, .mk _ _ _ _ children _ => children.all (depthLe b)

/-- `Subnode p n`: `p` occurs in the tree `n` (reflexively, or inside some
child). -/
inductive Subnode : Node → Node → Prop where
  | refl (n : Node) : Subnode n n
  | step {p c n : Node} : c ∈ n.children → Subnode p c → Subnode p n

/-! ## The wave loop and `build_tree_optimized` -/

/-- `all_sections.update({n.id: n})` for one entry: replace the entry with
that key, or add it. -/
def updateSec (loaded : List WSec) (n : WSec) : List WSec :=
  if loaded.any (fun w => w.id == n.id) then
    loaded.map (fun w => if w.id == n.id then n else w)
  else loaded ++ [n]

/-- `all_sections.update(new_sections)`. -/
def updateSecs (loaded : List WSec) (ws : List WSec) : List WSec :=
  ws.foldl updateSec loaded

/-- One step of new-id collection:
`if ss_id and ss_id not in all_sections and ss_id not in new_ids_to_fetch:
new_ids_to_fetch.add(ss_id)`. -/
def collectStep (loaded : List WSec) (acc : List String) (ss : SRef) : List String :=
  if !(ss.id == "") && (lookupSec loaded ss.id).isNone && !(acc.contains ss.id) then
    acc ++ [ss.id]
  else acc

/-- Collect the child-section ids referenced by `ws` that are not already
loaded (both the first pass over the root sections and the per-wave
recomputation use this shape, with the respective exclusion map). -/
def collectNewIds (ws : List WSec) (loaded : List WSec) : List String :=
  ws.foldl (fun acc w => w.sous.foldl (collectStep loaded) acc) []

/-- The wave loop (`while remaining_ids and wave_num < max_waves`), with
`max_waves - wave_num` as explicit fuel (`max_waves = 10`): batch-fetch the
frontier, merge into the loaded map, recompute the frontier from the new
sections' child references excluding ids already loaded, and count the
wave. -/
def waveLoopFuel : Nat → List DRow → List WSec → List String → Nat → List WSec × Nat
  | 0, _, loaded, _, waveNum => (loaded, waveNum)
  | fuel + 1, store, loaded, remaining, waveNum =>
    if remaining.isEmpty then (loaded, waveNum)
    else
      let new := fetchByIds store remaining
      let loaded2 := updateSecs loaded new
      let remaining2 := collectNewIds new loaded2
      waveLoopFuel fuel store loaded2 remaining2 (waveNum + 1)

/-- The tree payload of `build_tree_optimized` (`code_id`, `titre`,
`nature`, `tree`, `nb_sections_loaded`, `nb_waves`). -/
structure BuildResult where
  code_id : String
  titre : String
  nature : String
  tree : List Node
  nb_sections_loaded : Nat
  nb_waves : Nat

/-- Python's `x or default` for a nullable string. -/
def orDefault (o : Option String) (dflt : String) : String :=
  match o with
  | some s => if s = "" then dflt else s
  | none => dflt

/-- `WHERE source = 'LEGI' AND doctype = 'texte' AND meta->>'id' = %s`. -/
def isCodeRow (codeId : String) (r : DRow) : Bool :=
  r.source == "LEGI" && r.doctype == "texte" && r.mid == codeId

/-- `build_tree_optimized(code_id)`: fetch the code header (else `None`),
fetch the deduplicated root sections, collect their child ids, run at most
10 fetch waves, then assemble the tree in memory from the loaded sections
only, bounded at depth 10. -/
def build_tree_optimized (store : List DRow) (codeId : String) : Option BuildResult :=
  match (store.filter (isCodeRow codeId)).head? with
  | none => none
  | some codeRow =>
    let roots := fetchByParent store codeId
    let rootIds := roots.map WSec.id
    let remaining0 := collectNewIds roots roots
    let looped := waveLoopFuel 10 store roots remaining0 0
    let tree := rootIds.filterMap (fun rid => build_node looped.1 rid 1 10)
    some { code_id := codeId,
           titre := orDefault codeRow.titre ("Code " ++ codeId),
           nature := orDefault codeRow.nature "CODE",
           tree := tree,
           nb_sections_loaded := looped.1.length,
           nb_waves := looped.2 }

theorem buildNodeFuel_some (fuel : Nat) (allSecs : List WSec) (sid : String)
    (d m : Nat) (sec : WSec) (hl : lookupSec allSecs sid = some sec) :
    buildNodeFuel (fuel + 1) allSecs sid d m =
      some (Node.mk sec.id sec.titre sec.nb_sections sec.nb_articles
        (if d < m then
          (sec.sous.filter refValid).filterMap
            (fun ss => buildNodeFuel fuel allSecs ss.id (d + 1) m)
         else [])
        (articlesFiltered sec.arts)) := by
  simp only [buildNodeFuel, hl]

theorem lookupSec_id (allSecs : List WSec) (sid : String) (sec : WSec)
    (hl : lookupSec allSecs sid = some sec) : sec.id = sid := by
  unfold lookupSec at hl
  have hp := List.find?_some hl
  exact eq_of_beq hp

theorem buildNodeFuel_id (fuel : Nat) (allSecs : List WSec) (sid : String)
    (d m : Nat) (n : Node) (h : buildNodeFuel fuel allSecs sid d m = some n) :
    n.id = sid := by
  cases fuel with
  | zero => simp [buildNodeFuel] at h
  | succ f =>
    cases hl : lookupSec allSecs sid with
    | none => simp [buildNodeFuel, hl] at h
    | some sec =>
      rw [buildNodeFuel_some f allSecs sid d m sec hl] at h
      injection h with h2
      rw [← h2]
      simp only [Node.id]
      exact lookupSec_id allSecs sid sec hl

theorem buildNodeFuel_depthLe :
    ∀ (fuel : Nat) (allSecs : List WSec) (sid : String) (d m : Nat) (n : Node),
      buildNodeFuel fuel allSecs sid d m = some n → depthLe fuel n = true := by
  intro fuel
  induction fuel with
  | zero => intro allSecs sid d m n h; simp [buildNodeFuel] at h
  | succ f ih =>
    intro allSecs sid d m n h
    cases hl : lookupSec allSecs sid with
    | none => simp [buildNodeFuel, hl] at h
    | some sec =>
      rw [buildNodeFuel_some f allSecs sid d m sec hl] at h
      injection h with h2
      rw [← h2]
      simp only [depthLe]
      rw [List.all_eq_true]
      intro c hc
      by_cases hdm : d < m
      · rw [if_pos hdm] at hc
        rw [List.mem_filterMap] at hc
        obtain ⟨ss, _, hbuild⟩ := hc
        exact ih allSecs ss.id (d + 1) m c hbuild
      · rw [if_neg hdm] at hc
        cases hc

theorem articlesLoop_mem :
    ∀ (arts : List ARef) (acc : List OutArt) (a : OutArt),
      a ∈ articlesLoop arts acc →
        a ∈ acc ∨ ∃ ar ∈ arts, artValid ar = true ∧ a = mkOutArt ar := by
  intro arts
  induction arts with
  | nil =>
    intro acc a h
    simp only [articlesLoop] at h
    exact Or.inl (List.mem_reverse.mp h)
  | cons x rest ih =>
    intro acc a h
    simp only [articlesLoop] at h
    by_cases hv : artValid x = true
    · rw [if_pos hv] at h
      by_cases hfull : 500 ≤ (mkOutArt x :: acc).length
      · rw [if_pos hfull] at h
        rw [List.mem_reverse] at h
        rcases List.mem_cons.mp h with h1 | h2
        · exact Or.inr ⟨x, List.mem_cons_self x rest, hv, h1⟩
        · exact Or.inl h2
      · rw [if_neg hfull] at h
        rcases ih _ a h with h1 | ⟨ar, har, hval, heq⟩
        · rcases List.mem_cons.mp h1 with h2 | h3
          · exact Or.inr ⟨x, List.mem_cons_self x rest, hv, h2⟩
          · exact Or.inl h3
        · exact Or.inr ⟨ar, List.mem_cons_of_mem x har, hval, heq⟩
    · rw [if_neg hv] at h
      rcases ih acc a h with h1 | ⟨ar, har, hval, heq⟩
      · exact Or.inl h1
      · exact Or.inr ⟨ar, List.mem_cons_of_mem x har, hval, heq⟩

theorem articlesLoop_eq :
    ∀ (arts : List ARef) (acc : List OutArt), acc.length < 500 →
      articlesLoop arts acc =
        acc.reverse ++ ((arts.filter artValid).take (500 - acc.length)).map mkOutArt := by
  intro arts
  induction arts with
  | nil =>
    intro acc _
    simp [articlesLoop]
  | cons x rest ih =>
    intro acc hlen
    simp only [articlesLoop, List.filter_cons]
    by_cases hv : artValid x = true
    · rw [if_pos hv, if_pos hv]
      by_cases hfull : 500 ≤ (mkOutArt x :: acc).length
      · rw [if_pos hfull]
        have h499 : acc.length = 499 := by
          simp only [List.length_cons] at hfull
          omega
        rw [List.reverse_cons, h499]
        have h1 : (500 : Nat) - 499 = 1 := by omega
        rw [h1]
        rw [List.take_succ_cons, List.take_zero, List.map_cons, List.map_nil]
      · rw [if_neg hfull]
        have hlt : (mkOutArt x :: acc).length < 500 := by omega
        rw [ih _ hlt, List.reverse_cons, List.append_assoc]
        congr 1
        simp only [List.length_cons]
        have h2 : 500 - acc.length = (500 - (acc.length + 1)) + 1 := by omega
        rw [h2, List.take_succ_cons, List.map_cons]
        rfl
    · rw [if_neg hv, if_neg hv]
      exact ih acc hlen

theorem articlesFiltered_eq (arts : List ARef) :
    articlesFiltered arts = ((arts.filter artValid).take 500).map mkOutArt := by
  unfold articlesFiltered
  rw [articlesLoop_eq arts [] (by simp)]
  simp

/-- C5 (depth bound honored).  Whatever the stored corpus, a successful
`build_tree_optimized` returns a payload in which every root node's tree
fits within depth 10 (roots at depth 1): no node beyond `maxDepth` appears,
and deeper source data is silently omitted rather than erring — the build
still returns a payload. -/
theorem C5_depth_bound (store : List DRow) (codeId : String) (res : BuildResult)
    (h : build_tree_optimized store codeId = some res) :
    ∀ n ∈ res.tree, depthLe 10 n = true := by
  intro n hn
  unfold build_tree_optimized at h
  cases hh : (store.filter (isCodeRow codeId)).head? with
  | none => rw [hh] at h; cases h
  | some codeRow =>
    rw [hh] at h
    injection h with h2
    rw [← h2] at hn
    simp only at hn
    rw [List.mem_filterMap] at hn
    obtain ⟨rid, _, hbuild⟩ := hn
    exact buildNodeFuel_depthLe 10 _ rid 1 10 n hbuild

/-- C7 (truncation policy).  For any loaded section whose stored metadata
lists at least 500 article references passing the validity filter, the
built node exists (whenever the depth guard admits it) and its article list
is exactly the first 500 qualifying references, in stored metadata order —
never more, never fewer. -/
theorem C7_truncation (allSecs : List WSec) (sid : String) (sec : WSec)
    (d m : Nat) (hl : lookupSec allSecs sid = some sec) (hd : d ≤ m)
    (hcount : 500 ≤ (sec.arts.filter artValid).length) :
    ∃ n, build_node allSecs sid d m = some n ∧
      n.articles = ((sec.arts.filter artValid).take 500).map mkOutArt ∧
      n.articles.length = 500 := by
  have hf : m + 1 - d = (m - d) + 1 := by omega
  refine ⟨_, by unfold build_node; rw [hf]; exact buildNodeFuel_some (m - d) allSecs sid d m sec hl, ?_, ?_⟩
  · simp only [Node.articles]
    exact articlesFiltered_eq sec.arts
  · simp only [Node.articles]
    rw [articlesFiltered_eq sec.arts, List.length_map, List.length_take]
    omega

/-- A currently-valid article reference, repeated 600 times in one
section's metadata. -/
def c7Art : ARef :=
  { id := "LEGIARTI000000000003", num := some "1", debut := none,
    fin := some "2999-01-01", etat := none, origine := some "LEGI" }

def c7Sec : WSec :=
  { id := "S", titre := some "Articles", sous := [],
    arts := List.replicate 600 c7Art, nb_sections := 0, nb_articles := 600 }

/-- Witness for C7: a section with 600 qualifying articles yields exactly
500 in the output. -/
theorem C7_truncation_witness :
    ∃ n, build_node [c7Sec] "S" 1 10 = some n ∧
      n.articles = ((c7Sec.arts.filter artValid).take 500).map mkOutArt ∧
      n.articles.length = 500 :=
  C7_truncation [c7Sec] "S" c7Sec 1 10 rfl (by omega)
    (by rw [show c7Sec.arts.filter artValid = List.replicate 600 c7Art from
          filter_replicate_true 600 artValid c7Art rfl,
        List.length_replicate]
        omega)

/-- C9, amended (no cycle guard, termination by depth bound).  The
recursive assembly tracks no "in progress" ids: when a loaded section's
metadata contains a currently-valid child reference back to the very id
being assembled, the revisit is re-expanded as an ordinary child node —
not surfaced as a data error — so a malformed cycle produces repeated
nodes until the depth bound cuts it off; assembly always terminates
because every recursive call consumes one unit of the
`max_depth + 1 - current_depth` budget. -/
theorem C9_cycle_unguarded (allSecs : List WSec) (sid : String) (sec : WSec)
    (d m : Nat) (hl : lookupSec allSecs sid = some sec) (hdm : d < m)
    (ss : SRef) (hss : ss ∈ sec.sous) (hid : ss.id = sid)
    (hv : refValid ss = true) :
    ∃ n c, build_node allSecs sid d m = some n ∧ c ∈ n.children ∧ c.id = sid := by
  have hsecid : sec.id = sid := lookupSec_id allSecs sid sec hl
  have hchild : ∃ c, buildNodeFuel (m - d) allSecs ss.id (d + 1) m = some c ∧
      c.id = ss.id := by
    have h1 : m - d = (m - d - 1) + 1 := by omega
    rw [h1, hid]
    exact ⟨_, buildNodeFuel_some (m - d - 1) allSecs sid (d + 1) m sec hl, by
      simp only [Node.id]; exact hsecid⟩
  obtain ⟨c, hc, hcid⟩ := hchild
  refine ⟨Node.mk sec.id sec.titre sec.nb_sections sec.nb_articles
      ((sec.sous.filter refValid).filterMap
        (fun ss2 => buildNodeFuel (m - d) allSecs ss2.id (d + 1) m))
      (articlesFiltered sec.arts), c, ?_, ?_, by rw [hcid, hid]⟩
  · unfold build_node
    have hf : m + 1 - d = (m - d) + 1 := by omega
    rw [hf, buildNodeFuel_some (m - d) allSecs sid d m sec hl, if_pos hdm]
  · simp only [Node.children]
    rw [List.mem_filterMap]
    exact ⟨ss, List.mem_filter.mpr ⟨hss, hv⟩, hc⟩

/-- A section whose child-reference list points back at itself, forming a
cycle in the stored child references. -/
def c9Ref : SRef :=
  { id := "A", debut := none, fin := some "2999-01-01", etat := some "VIGUEUR" }

def c9Sec : WSec :=
  { id := "A", titre := some "Cyclic", sous := [c9Ref], arts := [],
    nb_sections := 1, nb_articles := 0 }

/-- Witness for amended C9: on the concrete cyclic corpus the revisited id
comes back as an ordinary child node. -/
theorem C9_cycle_unguarded_witness :
    ∃ n c, build_node [c9Sec] "A" 1 10 = some n ∧ c ∈ n.children ∧ c.id = "A" :=
  C9_cycle_unguarded [c9Sec] "A" c9Sec 1 10 rfl (by omega) c9Ref
    (List.mem_singleton_self c9Ref) rfl rfl

/-- Counterexample to C9 as stated: in the self-loop corpus `c9Sec`,
assembly does not treat the revisit of the in-progress id `A` as a data
error — it materializes a chain of `A` nodes all the way to the depth
bound (depth exactly 10, not 9), each child again named `A`. -/
theorem C9_counterexample :
    (build_node [c9Sec] "A" 1 10).map (depthLe 10) = some true ∧
    (build_node [c9Sec] "A" 1 10).map (depthLe 9) = some false ∧
    (build_node [c9Sec] "A" 1 10).map (fun n => n.children.map Node.id) =
      some ["A"] := by
  refine ⟨rfl, rfl, rfl⟩

theorem buildNodeFuel_edges (fuel : Nat) (allSecs : List WSec) (sid : String)
    (d m : Nat) (n : Node) (h : buildNodeFuel fuel allSecs sid d m = some n) :
    (∀ c ∈ n.children, ∃ sec ss, lookupSec allSecs n.id = some sec ∧
      ss ∈ sec.sous ∧ ss.id = c.id ∧
      (ss.fin = some "2999-01-01" ∨ ss.etat = some "VIGUEUR")) ∧
    (∀ a ∈ n.articles, ∃ sec ar, lookupSec allSecs n.id = some sec ∧
      ar ∈ sec.arts ∧ ar.id = a.id ∧
      (ar.fin = some "2999-01-01" ∨ ar.etat = some "VIGUEUR")) := by
  cases fuel with
  | zero => simp [buildNodeFuel] at h
  | succ f =>
    cases hl : lookupSec allSecs sid with
    | none => simp [buildNodeFuel, hl] at h
    | some sec =>
      rw [buildNodeFuel_some f allSecs sid d m sec hl] at h
      injection h with h2
      have hnid : n.id = sid := by
        rw [← h2]
        simp only [Node.id]
        exact lookupSec_id allSecs sid sec hl
      have hln : lookupSec allSecs n.id = some sec := by rw [hnid]; exact hl
      constructor
      · intro c hc
        rw [← h2] at hc
        simp only [Node.children] at hc
        by_cases hdm : d < m
        · rw [if_pos hdm] at hc
          rw [List.mem_filterMap] at hc
          obtain ⟨ss, hssf, hcb⟩ := hc
          rcases List.mem_filter.mp hssf with ⟨hssmem, hssv⟩
          refine ⟨sec, ss, hln, hssmem, ?_, ?_⟩
          · exact (buildNodeFuel_id f allSecs ss.id (d + 1) m c hcb).symm
          · simpa [refValid] using hssv
        · rw [if_neg hdm] at hc
          cases hc
      · intro a ha
        rw [← h2] at ha
        simp only [Node.articles] at ha
        rcases articlesLoop_mem sec.arts [] a ha with hnil | ⟨ar, harm, harv, haeq⟩
        · cases hnil
        · refine ⟨sec, ar, hln, harm, ?_, ?_⟩
          · rw [haeq]
            rfl
          · simpa [artValid] using harv


theorem buildNodeFuel_sub (p n : Node) (hsub : Subnode p n) :
    ∀ (fuel : Nat) (allSecs : List WSec) (sid : String) (d m : Nat),
      buildNodeFuel fuel allSecs sid d m = some n →
      ∃ fuel2 sid2 d2, buildNodeFuel fuel2 allSecs sid2 d2 m = some p := by
  induction hsub with
  | refl => intro fuel allSecs sid d m h; exact ⟨fuel, sid, d, h⟩
  | step hc _ ih =>
    intro fuel allSecs sid d m h
    cases fuel with
    | zero => simp [buildNodeFuel] at h
    | succ f =>
      cases hl : lookupSec allSecs sid with
      | none => simp [buildNodeFuel, hl] at h
      | some sec =>
        rw [buildNodeFuel_some f allSecs sid d m sec hl] at h
        injection h with h2
        rw [← h2] at hc
        simp only [Node.children] at hc
        by_cases hdm : d < m
        · rw [if_pos hdm] at hc
          rw [List.mem_filterMap] at hc
          obtain ⟨ss, _, hcb⟩ := hc
          exact ih f allSecs ss.id (d + 1) m hcb
        · rw [if_neg hdm] at hc
          cases hc

/-- C6 (validity filtering).  In any tree assembled by
`build_node_from_memory`, every parent-child edge and every attached
article of every node (at any depth, via `Subnode`) is justified by a
reference in the parent's loaded metadata whose end marker is the
open-ended sentinel `2999-01-01` or whose state flag is `VIGUEUR`; and a
reference whose end date lies before "now" (for any `now` before the
sentinel) with a non-`VIGUEUR` state fails the validity filter, so it
never justifies an edge — such children and articles are pruned. -/
theorem C6_validity_filtering (allSecs : List WSec) (sid : String)
    (d m : Nat) (n : Node) (h : build_node allSecs sid d m = some n) :
    (∀ p, Subnode p n →
      (∀ c ∈ p.children, ∃ sec ss, lookupSec allSecs p.id = some sec ∧
        ss ∈ sec.sous ∧ ss.id = c.id ∧
        (ss.fin = some "2999-01-01" ∨ ss.etat = some "VIGUEUR")) ∧
      (∀ a ∈ p.articles, ∃ sec ar, lookupSec allSecs p.id = some sec ∧
        ar ∈ sec.arts ∧ ar.id = a.id ∧
        (ar.fin = some "2999-01-01" ∨ ar.etat = some "VIGUEUR"))) ∧
    (∀ (ss : SRef) (fin now : String), ss.fin = some fin →
      fin < now → now < "2999-01-01" → ss.etat ≠ some "VIGUEUR" →
      refValid ss = false) := by
  constructor
  · intro p hsub
    obtain ⟨fuel2, sid2, d2, hp⟩ :=
      buildNodeFuel_sub p n hsub (m + 1 - d) allSecs sid d m h
    exact buildNodeFuel_edges fuel2 allSecs sid2 d2 m p hp
  · intro ss fin now hfin hlt1 hlt2 hetat
    have hne : fin ≠ "2999-01-01" := ne_of_lt (lt_trans hlt1 hlt2)
    unfold refValid
    rw [hfin]
    simp [hne, hetat]

/-- A root section with one currently-valid child (`B`, sentinel end
marker) and one historical child (`X`, ended 1990, state `ABROGE`). -/
def c6RefB : SRef :=
  { id := "B", debut := some "1990-01-01", fin := some "2999-01-01", etat := none }

def c6RefX : SRef :=
  { id := "X", debut := some "1980-01-01", fin := some "1990-01-01",
    etat := some "ABROGE" }

def c6SecA : WSec :=
  { id := "A", titre := some "Root", sous := [c6RefB, c6RefX], arts := [],
    nb_sections := 2, nb_articles := 0 }

def c6SecB : WSec :=
  { id := "B", titre := some "Child", sous := [], arts := [],
    nb_sections := 0, nb_articles := 0 }

def c6Secs : List WSec := [c6SecA, c6SecB]

/-- Witness for C6 at a concrete corpus: the built tree's edges are all
justified by currently-valid references (and, checked by evaluation, the
expired child `X` is absent — only `B` appears). -/
theorem C6_validity_filtering_witness :
    ∃ n, build_node c6Secs "A" 1 10 = some n ∧
      (∀ p, Subnode p n →
        ∀ c ∈ p.children, ∃ sec ss, lookupSec c6Secs p.id = some sec ∧
          ss ∈ sec.sous ∧ ss.id = c.id ∧
          (ss.fin = some "2999-01-01" ∨ ss.etat = some "VIGUEUR")) ∧
      (build_node c6Secs "A" 1 10).map (fun q => q.children.map Node.id) =
        some ["B"] := by
  have hs : (build_node c6Secs "A" 1 10).isSome = true := rfl
  cases hb : build_node c6Secs "A" 1 10 with
  | none => rw [hb] at hs; cases hs
  | some n =>
    refine ⟨n, rfl, ?_, ?_⟩
    · intro p hp
      exact ((C6_validity_filtering c6Secs "A" 1 10 n hb).1 p hp).1
    · rw [← hb]
      rfl

theorem collectStep_fold_mem :
    ∀ (sous : List SRef) (loaded : List WSec) (acc : List String) (j : String),
      j ∈ sous.foldl (collectStep loaded) acc → j ∈ acc ∨ ∃ ss ∈ sous, ss.id = j := by
  intro sous
  induction sous with
  | nil => intro loaded acc j h; exact Or.inl h
  | cons ss rest ih =>
    intro loaded acc j h
    rw [List.foldl_cons] at h
    rcases ih loaded _ j h with h1 | ⟨ss2, hss2, hid⟩
    · unfold collectStep at h1
      by_cases hc : (!(ss.id == "") && (lookupSec loaded ss.id).isNone &&
          !(acc.contains ss.id)) = true
      · rw [if_pos hc] at h1
        rcases List.mem_append.mp h1 with h2 | h3
        · exact Or.inl h2
        · rw [List.mem_singleton] at h3
          exact Or.inr ⟨ss, List.mem_cons_self ss rest, h3.symm⟩
      · rw [if_neg hc] at h1
        exact Or.inl h1
    · exact Or.inr ⟨ss2, List.mem_cons_of_mem ss hss2, hid⟩

theorem collectNewIds_mem (ws loaded : List WSec) (j : String)
    (h : j ∈ collectNewIds ws loaded) :
    ∃ w ∈ ws, ∃ ss ∈ w.sous, ss.id = j := by
  unfold collectNewIds at h
  suffices H : ∀ (ws2 : List WSec) (acc : List String),
      j ∈ ws2.foldl (fun acc w => w.sous.foldl (collectStep loaded) acc) acc →
      j ∈ acc ∨ ∃ w ∈ ws2, ∃ ss ∈ w.sous, ss.id = j by
    rcases H ws [] h with h1 | h2
    · cases h1
    · exact h2
  intro ws2
  induction ws2 with
  | nil => intro acc h2; exact Or.inl h2
  | cons w rest ih =>
    intro acc h2
    rw [List.foldl_cons] at h2
    rcases ih _ h2 with h3 | ⟨w2, hw2, ss, hssm, hid⟩
    · rcases collectStep_fold_mem w.sous loaded acc j h3 with h4 | ⟨ss, hssw, hid⟩
      · exact Or.inl h4
      · exact Or.inr ⟨w, List.mem_cons_self w rest, ss, hssw, hid⟩
    · exact Or.inr ⟨w2, List.mem_cons_of_mem w hw2, ss, hssm, hid⟩

theorem waveLoopFuel_waves_le :
    ∀ (fuel : Nat) (store : List DRow) (loaded : List WSec)
      (remaining : List String) (waveNum : Nat),
      (waveLoopFuel fuel store loaded remaining waveNum).2 ≤ waveNum + fuel := by
  intro fuel
  induction fuel with
  | zero => intro store loaded remaining waveNum; simp [waveLoopFuel]
  | succ f ih =>
    intro store loaded remaining waveNum
    simp only [waveLoopFuel]
    by_cases hemp : remaining.isEmpty = true
    · rw [if_pos hemp]
      omega
    · rw [if_neg hemp]
      exact le_trans (ih store _ _ (waveNum + 1)) (by omega)

theorem fetchByIds_sound (store : List DRow) (ids : List String) :
    ∀ w ∈ fetchByIds store ids,
      ∃ r ∈ store, r.mid ∈ ids ∧ w.sous = r.sous ∧ w.id = r.mid := by
  intro w hw
  obtain ⟨r, hr, hp, hwr, _⟩ :=
    (fetchMapped_spec store (fun r => isSectionRow r && ids.contains r.mid)).2.1 w hw
  refine ⟨r, hr, ?_, by rw [hwr]; rfl, by rw [hwr]; rfl⟩
  have hand := (Bool.and_eq_true _ _).mp hp
  rw [← List.elem_iff]
  exact hand.2

theorem fetchByParent_sound (store : List DRow) (codeId : String) :
    ∀ w ∈ fetchByParent store codeId,
      ∃ r ∈ store, r.parent = some codeId ∧ w.sous = r.sous ∧ w.id = r.mid := by
  intro w hw
  obtain ⟨r, hr, hp, hwr, _⟩ :=
    (fetchMapped_spec store (fun r => isSectionRow r && r.parent == some codeId)).2.1 w hw
  refine ⟨r, hr, ?_, by rw [hwr]; rfl, by rw [hwr]; rfl⟩
  have hand := (Bool.and_eq_true _ _).mp hp
  exact eq_of_beq hand.2

theorem waveLoopFuel_depth_bound (store : List DRow) (depth : String → Nat)
    (D : Nat)
    (Hc : ∀ r ∈ store, ∀ ss ∈ r.sous, depth ss.id = depth r.mid + 1)
    (HD : ∀ i, depth i ≤ D) :
    ∀ (fuel : Nat) (loaded : List WSec) (remaining : List String) (waveNum : Nat),
      (∀ i ∈ remaining, depth i = waveNum + 2) →
      (waveLoopFuel fuel store loaded remaining waveNum).2 ≤ max waveNum (D - 1) := by
  intro fuel
  induction fuel with
  | zero =>
    intro loaded remaining waveNum _
    simp only [waveLoopFuel]
    exact le_max_left _ _
  | succ f ih =>
    intro loaded remaining waveNum hinv
    simp only [waveLoopFuel]
    by_cases hemp : remaining.isEmpty = true
    · rw [if_pos hemp]
      exact le_max_left _ _
    · rw [if_neg hemp]
      have hne : remaining ≠ [] := by
        intro hn
        rw [hn] at hemp
        exact hemp rfl
      obtain ⟨i0, hi0⟩ := List.exists_mem_of_ne_nil remaining hne
      have hd0 : waveNum + 2 ≤ D := by
        rw [← hinv i0 hi0]
        exact HD i0
      have hinv2 : ∀ j ∈ collectNewIds (fetchByIds store remaining)
          (updateSecs loaded (fetchByIds store remaining)),
          depth j = (waveNum + 1) + 2 := by
        intro j hj
        obtain ⟨w, hw, ss, hssw, hid⟩ := collectNewIds_mem _ _ j hj
        obtain ⟨r, hr, hmid, hsous, _⟩ := fetchByIds_sound store remaining w hw
        rw [hsous] at hssw
        rw [← hid, Hc r hr ss hssw, hinv r.mid hmid]
      have hrec := ih (updateSecs loaded (fetchByIds store remaining))
        (collectNewIds (fetchByIds store remaining)
          (updateSecs loaded (fetchByIds store remaining))) (waveNum + 1) hinv2
      have hle : max (waveNum + 1) (D - 1) ≤ max waveNum (D - 1) := by
        have h1 : waveNum + 1 ≤ D - 1 := by omega
        rw [max_eq_right h1]
        exact le_max_right _ _
      exact le_trans hrec hle

/-- C4 (wave-count bound).  For any stored corpus whose section rows form a
synthetic tree under `codeId` — witnessed by a depth labelling in which
root sections (parent = the code id) sit at depth 1, every referenced child
sits one level below its parent, and all depths are at most `D` —
`build_tree_optimized` runs at most `D - 1` waves, hence issues at most
`D + 1` batched section fetches (one root-frontier query plus one per
wave) regardless of branching factor, and in all cases at most
`maxWaves = 10` waves.  The loop recomputes the frontier from the newly
loaded sections' child references excluding loaded ids, and stops as soon
as the frontier is empty. -/
theorem C4_wave_bound (store : List DRow) (codeId : String)
    (depth : String → Nat) (D : Nat)
    (Hroot : ∀ r ∈ store, r.parent = some codeId → depth r.mid = 1)
    (Hc : ∀ r ∈ store, ∀ ss ∈ r.sous, depth ss.id = depth r.mid + 1)
    (HD : ∀ i, depth i ≤ D) :
    ∀ res, build_tree_optimized store codeId = some res →
      res.nb_waves + 1 ≤ D + 1 ∧ res.nb_waves ≤ 10 := by
  intro res h
  unfold build_tree_optimized at h
  cases hh : (store.filter (isCodeRow codeId)).head? with
  | none => rw [hh] at h; cases h
  | some codeRow =>
    rw [hh] at h
    injection h with h2
    have hwaves : res.nb_waves = (waveLoopFuel 10 store (fetchByParent store codeId)
        (collectNewIds (fetchByParent store codeId) (fetchByParent store codeId))
        0).2 := by
      rw [← h2]
    have hinv0 : ∀ i ∈ collectNewIds (fetchByParent store codeId)
        (fetchByParent store codeId), depth i = 0 + 2 := by
      intro i hi
      obtain ⟨w, hw, ss, hssw, hid⟩ := collectNewIds_mem _ _ i hi
      obtain ⟨r, hr, hpar, hsous, _⟩ := fetchByParent_sound store codeId w hw
      rw [hsous] at hssw
      rw [← hid, Hc r hr ss hssw, Hroot r hr hpar]
    constructor
    · rw [hwaves]
      have hbound := waveLoopFuel_depth_bound store depth D Hc HD 10
        (fetchByParent store codeId)
        (collectNewIds (fetchByParent store codeId) (fetchByParent store codeId))
        0 hinv0
      rw [Nat.zero_max] at hbound
      omega
    · rw [hwaves]
      have := waveLoopFuel_waves_le 10 store (fetchByParent store codeId)
        (collectNewIds (fetchByParent store codeId) (fetchByParent store codeId)) 0
      omega

/-- A synthetic depth-2 corpus: code header `C`, root section `A` (parent
`C`) referencing child section `B` (parent `A`). -/
def c4Code : DRow :=
  { mid := "C", titre := some "Code demo", nature := some "CODE",
    parent := none, date_debut := none, sous := [], arts := [],
    nbSections := none, nbArticles := none, source := "LEGI", doctype := "texte" }

def c4RefB : SRef :=
  { id := "B", debut := some "2000-01-01", fin := some "2999-01-01",
    etat := some "VIGUEUR" }

def c4SecA : DRow :=
  { mid := "A", titre := some "Sec A", nature := none, parent := some "C",
    date_debut := some "2000-01-01", sous := [c4RefB], arts := [],
    nbSections := some 1, nbArticles := some 0,
    source := "LEGI", doctype := "section" }

def c4SecB : DRow :=
  { mid := "B", titre := some "Sec B", nature := none, parent := some "A",
    date_debut := some "2000-01-01", sous := [], arts := [],
    nbSections := some 0, nbArticles := some 0,
    source := "LEGI", doctype := "section" }

def c4Store : List DRow := [c4Code, c4SecA, c4SecB]

def c4Depth (i : String) : Nat := if i = "B" then 2 else 1

/-- Witness for C4: on the concrete depth-2 corpus the build succeeds and
obeys both bounds. -/
theorem C4_wave_bound_witness :
    ∃ res, build_tree_optimized c4Store "C" = some res ∧
      res.nb_waves + 1 ≤ 2 + 1 ∧ res.nb_waves ≤ 10 := by
  have hs : (build_tree_optimized c4Store "C").isSome = true := rfl
  cases hb : build_tree_optimized c4Store "C" with
  | none => rw [hb] at hs; cases hs
  | some res =>
    refine ⟨res, rfl, ?_⟩
    refine C4_wave_bound c4Store "C" c4Depth 2 ?_ ?_ ?_ res hb
    · intro r hr hp
      fin_cases hr <;> simp_all [c4Depth, c4Code, c4SecA, c4SecB, c4Store]
    · intro r hr ss hss
      fin_cases hr <;> simp_all [c4Depth, c4Code, c4SecA, c4SecB, c4RefB, c4Store]
    · intro i
      unfold c4Depth
      by_cases hi : i = "B" <;> simp [hi]

/-- Witness for C5: on the concrete depth-2 corpus every root tree fits
within depth 10. -/
theorem C5_depth_bound_witness :
    ∃ res, build_tree_optimized c4Store "C" = some res ∧
      ∀ n ∈ res.tree, depthLe 10 n = true := by
  have hs : (build_tree_optimized c4Store "C").isSome = true := rfl
  cases hb : build_tree_optimized c4Store "C" with
  | none => rw [hb] at hs; cases hs
  | some res => exact ⟨res, rfl, C5_depth_bound c4Store "C" res hb⟩

/-! ## UTF-8 with replacement (`data.decode("utf-8", errors="replace")`)

Bytes are `Nat`s below 256; codepoints are `Nat`s.  The decoder follows the
UTF-8 acceptance ranges Python enforces (no overlongs, no surrogates, max
`U+10FFFF`) and, on an invalid sequence, emits one `U+FFFD` per maximal
valid subpart, resuming at the offending byte — CPython's `replace`
handler behavior. -/

def isCont (b : Nat) : Bool := decide (0x80 ≤ b ∧ b ≤ 0xBF)

/-- Lower bound of the first continuation byte for a 3- or 4-byte lead
(`E0` excludes overlongs, `ED` excludes surrogates, `F0` excludes
overlongs, `F4` caps at `U+10FFFF`). -/
def cont1lo (b : Nat) : Nat :=
  if b = 0xE0 then 0xA0
  else if b = 0xED then 0x80
  else if b = 0xF0 then 0x90
  else if b = 0xF4 then 0x80
  else 0x80

def cont1hi (b : Nat) : Nat :=
  if b = 0xED then 0x9F
  else if b = 0xF4 then 0x8F
  else 0xBF

def decodeReplace : List Nat → List Nat
  | [] => []
  | b :: rest =>
    if b < 0x80 then b :: decodeReplace rest
    else if 0xC2 ≤ b ∧ b ≤ 0xDF then
      match rest with
      | [] => [0xFFFD]
      | c1 :: r1 =>
        if isCont c1 then ((b - 0xC0) * 0x40 + (c1 - 0x80)) :: decodeReplace r1
        else 0xFFFD :: decodeReplace (c1 :: r1)
    else if 0xE0 ≤ b ∧ b ≤ 0xEF then
      match rest with
      | [] => [0xFFFD]
      | c1 :: r1 =>
        if cont1lo b ≤ c1 ∧ c1 ≤ cont1hi b then
          match r1 with
          | [] => [0xFFFD]
          | c2 :: r2 =>
            if isCont c2 then
              ((b - 0xE0) * 0x1000 + (c1 - 0x80) * 0x40 + (c2 - 0x80)) ::
                decodeReplace r2
            else 0xFFFD :: decodeReplace (c2 :: r2)
        else 0xFFFD :: decodeReplace (c1 :: r1)
    else if 0xF0 ≤ b ∧ b ≤ 0xF4 then
      match rest with
      | [] => [0xFFFD]
      | c1 :: r1 =>
        if cont1lo b ≤ c1 ∧ c1 ≤ cont1hi b then
          match r1 with
          | [] => [0xFFFD]
          | c2 :: r2 =>
            if isCont c2 then
              match r2 with
              | [] => [0xFFFD]
              | c3 :: r3 =>
                if isCont c3 then
                  ((b - 0xF0) * 0x40000 + (c1 - 0x80) * 0x1000 +
                    (c2 - 0x80) * 0x40 + (c3 - 0x80)) :: decodeReplace r3
                else 0xFFFD :: decodeReplace (c3 :: r3)
            else 0xFFFD :: decodeReplace (c2 :: r2)
        else 0xFFFD :: decodeReplace (c1 :: r1)
    else 0xFFFD :: decodeReplace rest

/-- Structural validity of a byte string as UTF-8 (same acceptance ranges
as the decoder; `true` exactly when decoding needs no replacement). -/
def validUtf8 : List Nat → Bool
  | [] => true
  | b :: rest =>
    if b < 0x80 then validUtf8 rest
    else if 0xC2 ≤ b ∧ b ≤ 0xDF then
      match rest with
      | [] => false
      | c1 :: r1 => isCont c1 && validUtf8 r1
    else if 0xE0 ≤ b ∧ b ≤ 0xEF then
      match rest with
      | [] => false
      | c1 :: r1 =>
        if cont1lo b ≤ c1 ∧ c1 ≤ cont1hi b then
          match r1 with
          | [] => false
          | c2 :: r2 => isCont c2 && validUtf8 r2
        else false
    else if 0xF0 ≤ b ∧ b ≤ 0xF4 then
      match rest with
      | [] => false
      | c1 :: r1 =>
        if cont1lo b ≤ c1 ∧ c1 ≤ cont1hi b then
          match r1 with
          | [] => false
          | c2 :: r2 =>
            if isCont c2 then
              match r2 with
              | [] => false
              | c3 :: r3 => isCont c3 && validUtf8 r3
            else false
        else false
    else false

/-- Standard UTF-8 encoding of one codepoint. -/
def encodeChar (cp : Nat) : List Nat :=
  if cp < 0x80 then [cp]
  else if cp < 0x800 then [0xC0 + cp / 0x40, 0x80 + cp % 0x40]
  else if cp < 0x10000 then
    [0xE0 + cp / 0x1000, 0x80 + (cp / 0x40) % 0x40, 0x80 + cp % 0x40]
  else
    [0xF0 + cp / 0x40000, 0x80 + (cp / 0x1000) % 0x40,
      0x80 + (cp / 0x40) % 0x40, 0x80 + cp % 0x40]

def encodeUtf8 (cps : List Nat) : List Nat := (cps.map encodeChar).flatten

theorem encodeUtf8_cons (c : Nat) (cs : List Nat) :
    encodeUtf8 (c :: cs) = encodeChar c ++ encodeUtf8 cs := by
  unfold encodeUtf8
  rw [List.map_cons, List.flatten_cons]

theorem cont1lo_ge (b : Nat) : 0x80 ≤ cont1lo b := by
  unfold cont1lo
  split
  · omega
  · split
    · omega
    · split
      · omega
      · split <;> omega

theorem cont1hi_le (b : Nat) : cont1hi b ≤ 0xBF := by
  unfold cont1hi
  split
  · omega
  · split <;> omega

theorem cont1lo_E0 : cont1lo 0xE0 = 0xA0 := rfl

theorem cont1lo_F0 : cont1lo 0xF0 = 0x90 := rfl

theorem utf8_roundtrip_aux :
    ∀ (k : Nat) (l : List Nat), l.length ≤ k → validUtf8 l = true →
      encodeUtf8 (decodeReplace l) = l := by
  intro k
  induction k with
  | zero =>
    intro l hl _
    have h0 : l = [] := List.length_eq_zero.mp (Nat.le_zero.mp hl)
    rw [h0]
    rfl
  | succ k ih =>
    intro l hl hv
    cases l with
    | nil => rfl
    | cons b rest =>
      by_cases h1 : b < 0x80
      · have hv' : validUtf8 rest = true := by
          rw [validUtf8.eq_def] at hv
          simp only [if_pos h1] at hv
          exact hv
        have hdec : decodeReplace (b :: rest) = b :: decodeReplace rest := by
          conv_lhs => rw [decodeReplace.eq_def]
          simp only [if_pos h1]
        rw [hdec, encodeUtf8_cons]
        rw [ih rest (by simp only [List.length_cons] at hl; omega) hv']
        unfold encodeChar
        rw [if_pos h1]
        rfl
      · by_cases h2 : 0xC2 ≤ b ∧ b ≤ 0xDF
        · cases rest with
          | nil => rw [validUtf8.eq_def] at hv; simp [h1, h2] at hv
          | cons c1 r1 =>
            by_cases hc1 : isCont c1 = true
            · have hv' : validUtf8 r1 = true := by
                rw [validUtf8.eq_def] at hv; simp [h1, h2, hc1] at hv
                exact hv
              have hdec : decodeReplace (b :: c1 :: r1) =
                  ((b - 0xC0) * 0x40 + (c1 - 0x80)) :: decodeReplace r1 := by
                conv_lhs => rw [decodeReplace.eq_def]
                simp [h1, h2, hc1]
              have hc1b : 0x80 ≤ c1 ∧ c1 ≤ 0xBF := by
                simpa [isCont] using hc1
              rw [hdec, encodeUtf8_cons]
              rw [ih r1 (by simp only [List.length_cons] at hl; omega) hv']
              have henc : encodeChar ((b - 0xC0) * 0x40 + (c1 - 0x80)) = [b, c1] := by
                unfold encodeChar
                rw [if_neg (by omega), if_pos (by omega)]
                have e1 : 0xC0 + ((b - 0xC0) * 0x40 + (c1 - 0x80)) / 0x40 = b := by
                  omega
                have e2 : 0x80 + ((b - 0xC0) * 0x40 + (c1 - 0x80)) % 0x40 = c1 := by
                  omega
                rw [e1, e2]
              rw [henc]
              rfl
            · rw [validUtf8.eq_def] at hv; simp [h1, h2, hc1] at hv
        · by_cases h3 : 0xE0 ≤ b ∧ b ≤ 0xEF
          · cases rest with
            | nil => rw [validUtf8.eq_def] at hv; simp [h1, h2, h3] at hv
            | cons c1 r1 =>
              by_cases hc1 : cont1lo b ≤ c1 ∧ c1 ≤ cont1hi b
              · cases r1 with
                | nil => rw [validUtf8.eq_def] at hv; simp [h1, h2, h3, hc1] at hv
                | cons c2 r2 =>
                  by_cases hc2 : isCont c2 = true
                  · have hv' : validUtf8 r2 = true := by
                      rw [validUtf8.eq_def] at hv; simp [h1, h2, h3, hc1, hc2] at hv
                      exact hv
                    have hdec : decodeReplace (b :: c1 :: c2 :: r2) =
                        ((b - 0xE0) * 0x1000 + (c1 - 0x80) * 0x40 + (c2 - 0x80)) ::
                          decodeReplace r2 := by
                      conv_lhs => rw [decodeReplace.eq_def]
                      simp [h1, h2, h3, hc1, hc2]
                    have hc1b : 0x80 ≤ c1 ∧ c1 ≤ 0xBF :=
                      ⟨le_trans (cont1lo_ge b) hc1.1, le_trans hc1.2 (cont1hi_le b)⟩
                    have hc2b : 0x80 ≤ c2 ∧ c2 ≤ 0xBF := by simpa [isCont] using hc2
                    have hlow : 0x800 ≤ (b - 0xE0) * 0x1000 + (c1 - 0x80) * 0x40 +
                        (c2 - 0x80) := by
                      by_cases hbe : b = 0xE0
                      · have hA0 : 0xA0 ≤ c1 := by
                          have hx := hc1.1
                          rw [hbe, cont1lo_E0] at hx
                          exact hx
                        omega
                      · omega
                    rw [hdec, encodeUtf8_cons]
                    rw [ih r2 (by simp only [List.length_cons] at hl; omega) hv']
                    have henc : encodeChar ((b - 0xE0) * 0x1000 + (c1 - 0x80) * 0x40 +
                        (c2 - 0x80)) = [b, c1, c2] := by
                      unfold encodeChar
                      rw [if_neg (by omega), if_neg (by omega), if_pos (by omega)]
                      have e1 : 0xE0 + ((b - 0xE0) * 0x1000 + (c1 - 0x80) * 0x40 +
                          (c2 - 0x80)) / 0x1000 = b := by omega
                      have e2 : 0x80 + (((b - 0xE0) * 0x1000 + (c1 - 0x80) * 0x40 +
                          (c2 - 0x80)) / 0x40) % 0x40 = c1 := by omega
                      have e3 : 0x80 + ((b - 0xE0) * 0x1000 + (c1 - 0x80) * 0x40 +
                          (c2 - 0x80)) % 0x40 = c2 := by omega
                      rw [e1, e2, e3]
                    rw [henc]
                    rfl
                  · rw [validUtf8.eq_def] at hv; simp [h1, h2, h3, hc1, hc2] at hv
              · rw [validUtf8.eq_def] at hv; simp [h1, h2, h3, hc1] at hv
          · by_cases h4 : 0xF0 ≤ b ∧ b ≤ 0xF4
            · cases rest with
              | nil => rw [validUtf8.eq_def] at hv; simp [h1, h2, h3, h4] at hv
              | cons c1 r1 =>
                by_cases hc1 : cont1lo b ≤ c1 ∧ c1 ≤ cont1hi b
                · cases r1 with
                  | nil => rw [validUtf8.eq_def] at hv; simp [h1, h2, h3, h4, hc1] at hv
                  | cons c2 r2 =>
                    by_cases hc2 : isCont c2 = true
                    · cases r2 with
                      | nil => rw [validUtf8.eq_def] at hv; simp [h1, h2, h3, h4, hc1, hc2] at hv
                      | cons c3 r3 =>
                        by_cases hc3 : isCont c3 = true
                        · have hv' : validUtf8 r3 = true := by
                            rw [validUtf8.eq_def] at hv; simp [h1, h2, h3, h4, hc1, hc2, hc3] at hv
                            exact hv
                          have hdec : decodeReplace (b :: c1 :: c2 :: c3 :: r3) =
                              ((b - 0xF0) * 0x40000 + (c1 - 0x80) * 0x1000 +
                                (c2 - 0x80) * 0x40 + (c3 - 0x80)) ::
                                decodeReplace r3 := by
                            conv_lhs => rw [decodeReplace.eq_def]
                            simp [h1, h2, h3, h4, hc1, hc2, hc3]
                          have hc1b : 0x80 ≤ c1 ∧ c1 ≤ 0xBF :=
                            ⟨le_trans (cont1lo_ge b) hc1.1, le_trans hc1.2 (cont1hi_le b)⟩
                          have hc2b : 0x80 ≤ c2 ∧ c2 ≤ 0xBF := by simpa [isCont] using hc2
                          have hc3b : 0x80 ≤ c3 ∧ c3 ≤ 0xBF := by simpa [isCont] using hc3
                          have hlow : 0x10000 ≤ (b - 0xF0) * 0x40000 +
                              (c1 - 0x80) * 0x1000 + (c2 - 0x80) * 0x40 + (c3 - 0x80) := by
                            by_cases hbf : b = 0xF0
                            · have h90 : 0x90 ≤ c1 := by
                                have hx := hc1.1
                                rw [hbf, cont1lo_F0] at hx
                                exact hx
                              omega
                            · omega
                          rw [hdec, encodeUtf8_cons]
                          rw [ih r3 (by simp only [List.length_cons] at hl; omega) hv']
                          have henc : encodeChar ((b - 0xF0) * 0x40000 +
                              (c1 - 0x80) * 0x1000 + (c2 - 0x80) * 0x40 + (c3 - 0x80)) =
                              [b, c1, c2, c3] := by
                            unfold encodeChar
                            rw [if_neg (by omega), if_neg (by omega), if_neg (by omega)]
                            have e1 : 0xF0 + ((b - 0xF0) * 0x40000 + (c1 - 0x80) * 0x1000 +
                                (c2 - 0x80) * 0x40 + (c3 - 0x80)) / 0x40000 = b := by omega
                            have e2 : 0x80 + (((b - 0xF0) * 0x40000 + (c1 - 0x80) * 0x1000 +
                                (c2 - 0x80) * 0x40 + (c3 - 0x80)) / 0x1000) % 0x40 = c1 := by
                              omega
                            have e3 : 0x80 + (((b - 0xF0) * 0x40000 + (c1 - 0x80) * 0x1000 +
                                (c2 - 0x80) * 0x40 + (c3 - 0x80)) / 0x40) % 0x40 = c2 := by
                              omega
                            have e4 : 0x80 + ((b - 0xF0) * 0x40000 + (c1 - 0x80) * 0x1000 +
                                (c2 - 0x80) * 0x40 + (c3 - 0x80)) % 0x40 = c3 := by omega
                            rw [e1, e2, e3, e4]
                          rw [henc]
                          rfl
                        · rw [validUtf8.eq_def] at hv; simp [h1, h2, h3, h4, hc1, hc2, hc3] at hv
                    · rw [validUtf8.eq_def] at hv; simp [h1, h2, h3, h4, hc1, hc2] at hv
                · rw [validUtf8.eq_def] at hv; simp [h1, h2, h3, h4, hc1] at hv
            · rw [validUtf8.eq_def] at hv; simp [h1, h2, h3, h4] at hv

/-- Replace-decoding is lossless on valid UTF-8 input: re-encoding the
decoded codepoints reproduces the original bytes exactly. -/
theorem utf8_roundtrip (l : List Nat) (h : validUtf8 l = true) :
    encodeUtf8 (decodeReplace l) = l :=
  utf8_roundtrip_aux l.length l le_rfl h

/-! ## `ingest_archive` content entries and parse-failure degradation -/

def toLowerStr (s : String) : String := String.mk (s.toList.map lowerChar)

/-- Python's `needle in haystack`. -/
def strContains (hay need : String) : Bool := hasSub need.toList hay.toList

def endsWithL (l suf : List Char) : Bool := l.drop (l.length - suf.length) == suf

/-- `_guess_doctype(path_in_tar)`. -/
def guessDoctype (path_in_tar : String) : String :=
  let p := toLowerStr path_in_tar
  if endsWithL p.toList ".xml".toList then
    if strContains p "/article" || strContains p "article" then "article"
    else if strContains p "/texte" || strContains p "texte" then "texte"
    else if strContains p "/section_ta" || strContains p "section_ta" then "section"
    else "xml"
  else if endsWithL p.toList ".dat".toList then
    if strContains p "liste_suppression" then "suppression_list"
    else "dat"
  else "blob"

/-- The metadata dict produced by `_extract_text_and_meta_from_xml` as far
as identity and failure marking are concerned: the extracted structural
`id` (absent on the failure branch) and the `parse_error` / `error`
marker. -/
structure XMeta where
  id : Option String
  parse_error : Bool
  error : String
  deriving DecidableEq, Repr

/-- `_extract_text_and_meta_from_xml`: the entire `try` body — lxml
parsing plus the per-root-tag field navigation — is abstracted as
`tryParse` (it is `lxml`-library behavior); any exception `e` inside it
yields `("", {"parse_error": True, "error": str(e)})` with the structural
metadata and extracted text left unpopulated. -/
def extractTextMeta (tryParse : List Nat → String → Except String (String × XMeta))
    (xml_bytes : List Nat) (path_in_tar : String) : String × XMeta :=
  match tryParse xml_bytes path_in_tar with
  | .ok res => res
  | .error e => ("", { id := none, parse_error := true, error := e })

/-- One member of the tar stream: its in-archive path and raw bytes. -/
structure Entry where
  path : String
  data : List Nat
  deriving DecidableEq, Repr

/-- The row appended to `pending` for one content entry (the
`content_xml` column holds `data.decode("utf-8", errors="replace")`,
kept here as the decoded codepoint sequence). -/
structure IngRow where
  doc_id : String
  source : String
  doctype : String
  path : String
  updated_at : String
  sha256 : String
  meta : XMeta
  content_xml : List Nat
  content_text : String
  deriving DecidableEq, Repr

/-- `doctype in ("article", "texte", "section", "xml") and
path_in_tar.lower().endswith(".xml")`. -/
def isXmlEntry (e : Entry) : Bool :=
  (guessDoctype e.path == "article" || guessDoctype e.path == "texte" ||
    guessDoctype e.path == "section" || guessDoctype e.path == "xml") &&
  endsWithL (toLowerStr e.path).toList ".xml".toList

/-- The per-entry body of `ingest_archive` for content entries: extract,
tag the source, compute the stable id and content hash, and build the
pending row.  Suppression-list entries go to `_delete_by_tokens`
(`deleteByTokens` above) and other members are ignored, so they yield no
row here; no branch aborts the surrounding loop. -/
def processEntry (tryParse : List Nat → String → Except String (String × XMeta))
    (sha256hex : String → String) (sha256bytes : List Nat → String)
    (source updated_at : String) (e : Entry) : Option IngRow :=
  if isXmlEntry e then
    let tm := extractTextMeta tryParse e.data e.path
    some { doc_id := docId sha256hex source e.path tm.2.id,
           source := source,
           doctype := guessDoctype e.path,
           path := e.path,
           updated_at := updated_at,
           sha256 := sha256bytes e.data,
           meta := tm.2,
           content_xml := decodeReplace e.data,
           content_text := tm.1 }
  else none

/-- All pending rows of one archive, in delivery order. -/
def ingestRows (tryParse : List Nat → String → Except String (String × XMeta))
    (sha256hex : String → String) (sha256bytes : List Nat → String)
    (source updated_at : String) (entries : List Entry) : List IngRow :=
  entries.filterMap (processEntry tryParse sha256hex sha256bytes source updated_at)

theorem filterMap_length_eq_filter {α β : Type} (f : α → Option β) (p : α → Bool)
    (h : ∀ a, (f a).isSome = p a) :
    ∀ l : List α, (l.filterMap f).length = (l.filter p).length := by
  intro l
  induction l with
  | nil => rfl
  | cons a l ih =>
    rw [List.filterMap_cons, List.filter_cons]
    cases hfa : f a with
    | none =>
      have := h a
      rw [hfa] at this
      rw [← this]
      simpa using ih
    | some b =>
      have := h a
      rw [hfa] at this
      rw [← this]
      simp only [Option.isSome_some, if_true, List.length_cons]
      rw [ih]

/-- C8, amended (parse-failure degradation).  Every archive entry routed to
XML extraction yields exactly one pending row — a parse failure never
skips the entry nor aborts the run — and on a parse failure the row is
degraded: metadata marked `parse_error` with the error string, extracted
text left empty, and the stored content being the UTF-8 replace-decoding
of the raw bytes, which reproduces the raw bytes exactly whenever they are
valid UTF-8 (invalid sequences are replaced by U+FFFD, so the bytes are
then preserved only modulo that substitution). -/
theorem C8_parse_failure_degradation
    (tryParse : List Nat → String → Except String (String × XMeta))
    (sha256hex : String → String) (sha256bytes : List Nat → String)
    (source updated_at : String) (entries : List Entry) :
    ((ingestRows tryParse sha256hex sha256bytes source updated_at entries).length =
      (entries.filter isXmlEntry).length) ∧
    (∀ e : Entry, isXmlEntry e = true → ∀ err, tryParse e.data e.path = .error err →
      ∃ row, processEntry tryParse sha256hex sha256bytes source updated_at e = some row ∧
        row.meta.parse_error = true ∧
        row.meta.error = err ∧
        row.content_text = "" ∧
        row.content_xml = decodeReplace e.data ∧
        (validUtf8 e.data = true → encodeUtf8 row.content_xml = e.data)) := by
  constructor
  · exact filterMap_length_eq_filter _ isXmlEntry
      (fun e => by
        unfold processEntry
        by_cases hx : isXmlEntry e = true
        · rw [if_pos hx, hx]
          rfl
        · rw [if_neg hx]
          rw [Bool.not_eq_true] at hx
          rw [hx]
          rfl) entries
  · intro e hx err herr
    refine ⟨_, by unfold processEntry; rw [if_pos hx], ?_, ?_, ?_, ?_, ?_⟩
    · show (extractTextMeta tryParse e.data e.path).2.parse_error = true
      unfold extractTextMeta
      rw [herr]
    · show (extractTextMeta tryParse e.data e.path).2.error = err
      unfold extractTextMeta
      rw [herr]
    · show (extractTextMeta tryParse e.data e.path).1 = ""
      unfold extractTextMeta
      rw [herr]
    · rfl
    · intro hvalid
      exact utf8_roundtrip e.data hvalid

/-- A parse function that always fails, standing in for lxml rejecting the
entry's bytes, and a concrete content hash. -/
def c8FailParse : List Nat → String → Except String (String × XMeta) :=
  fun _ _ => .error "not well-formed (invalid token)"

def c8HashBytes : List Nat → String := fun _ => "deadbeef"

/-- An XML entry whose raw bytes are the single byte `0xFF` — not valid
UTF-8, and not parseable as XML. -/
def c8BadEntry : Entry :=
  { path := "20260104-202823/legi/article/bad.xml", data := [0xFF] }

/-- Counterexample to C8 as stated: for the parse-failing entry
`c8BadEntry` the stored content is the replacement character `U+FFFD`, not
the raw byte `0xFF` — re-encoding the stored content gives
`EF BF BD ≠ FF`, so the raw bytes are *not* preserved unmodified (the
metadata is still marked `parse_error` and the row is still produced). -/
theorem C8_bytes_modified_counterexample :
    (processEntry c8FailParse hashTag c8HashBytes "LEGI" "20260104-202823"
        c8BadEntry).map (fun row => row.content_xml) = some [0xFFFD] ∧
    (processEntry c8FailParse hashTag c8HashBytes "LEGI" "20260104-202823"
        c8BadEntry).map (fun row => encodeUtf8 row.content_xml) =
      some [0xEF, 0xBF, 0xBD] ∧
    ([0xEF, 0xBF, 0xBD] : List Nat) ≠ [0xFF] ∧
    (processEntry c8FailParse hashTag c8HashBytes "LEGI" "20260104-202823"
        c8BadEntry).map (fun row => row.meta.parse_error) = some true := by
  refine ⟨rfl, rfl, by decide, rfl⟩

/-- An XML entry whose raw bytes are valid UTF-8 (`"<a"`), still failing
to parse. -/
def c8OkEntry : Entry :=
  { path := "legi/article/ok.xml", data := [0x3C, 0x61] }

/-- Witness for amended C8: the valid-UTF-8 parse-failing entry yields one
degraded row whose stored content re-encodes to exactly the raw bytes. -/
theorem C8_parse_failure_degradation_witness :
    (ingestRows c8FailParse hashTag c8HashBytes "LEGI" "20260104-202823"
        [c8OkEntry]).length = 1 ∧
    ∃ row, processEntry c8FailParse hashTag c8HashBytes "LEGI" "20260104-202823"
        c8OkEntry = some row ∧
      row.meta.parse_error = true ∧
      row.content_text = "" ∧
      encodeUtf8 row.content_xml = c8OkEntry.data := by
  have h := C8_parse_failure_degradation c8FailParse hashTag c8HashBytes
    "LEGI" "20260104-202823" [c8OkEntry]
  constructor
  · rw [h.1]
    rfl
  · obtain ⟨row, h1, h2, _, h4, _, h6⟩ :=
      h.2 c8OkEntry (by decide) "not well-formed (invalid token)" rfl
    exact ⟨row, h1, h2, h4, h6 (by decide)⟩

end Legifrance
